import Mathlib

/-!
Shallow embedding of `src/blurhash/blurhash.py` (fake-blurhash-python),
with theorems checking the specification's claims about it.

Python floats are modelled by `ℝ`, Python ints by `ℕ`/`ℤ`, and Python
exceptions by `Except Err`.  `int(x)` / `math.floor(x)` on the
non-negative quantities appearing in this code is `Int.floor`.
-/

namespace Blurhash

/-- The kinds of exception the source can raise: `ValueError` from
`base83_encode` (overflow), from `blurhash_encode` (component count out
of range), from the two decode paths (bad hash length), the `KeyError`
of `alphabet_values[...]`, and `IndexError` from string indexing such
as `blurhash[0]` / `blurhash[1]`. -/
inductive Err where
  | invalidSymbol : Err
  | encodingOverflow : Err
  | invalidComponentCount : Err
  | invalidHashLength : Err
  | indexError : Err
  deriving DecidableEq, Repr

/-- Source `alphabet` (line 19 of the source): the 83-symbol base-83 alphabet. -/
def alphabet : String :=
  "0123456789ABCDEFGHIJKLMNOPQRSTUVWXYZabcdefghijklmnopqrstuvwxyz#$%*+,-.:;=?@[]^_\x7b|\x7d~"

/-- Source `alphabet_values` (line 20): char-to-index lookup; `none` models the
`KeyError` for a character outside the alphabet. -/
def alphaIndex (c : Char) : Option ℕ :=
  alphabet.toList.indexOf? c

/-- Source `base83_decode` (lines 23-30). -/
def base83_decode (s : String) : Except Err ℕ :=
  s.toList.foldlM
    (fun v c =>
      match alphaIndex c with
      | some d => .ok (v * 83 + d)
      | none => .error .invalidSymbol)
    0

/-- The base-83 digits produced by the loop of `base83_encode`
(lines 44-46): digit `i` (0-based) is `value / 83 ^ (length - 1 - i) % 83`. -/
def b83digits (value length : ℕ) : List ℕ :=
  (List.range length).map fun i => value / 83 ^ (length - 1 - i) % 83

/-- The string built by the loop of `base83_encode` (lines 43-46). -/
def base83_string (value length : ℕ) : String :=
  String.mk ((b83digits value length).map fun d => alphabet.toList.getD d ' ')

/-- Source `base83_encode` (lines 33-47). -/
def base83_encode (value length : ℕ) : Except Err String :=
  if value / 83 ^ length ≠ 0 then
    .error .encodingOverflow
  else
    .ok (base83_string value length)

/-- Python `s[i]` for a string: `IndexError` when out of range. -/
def charAt (s : String) (i : ℕ) : Except Err Char :=
  match s.toList.get? i with
  | some c => .ok c
  | none => .error .indexError

/-- Python slice `s[a:b]` (never raises; clamps at the ends). -/
def strSlice (s : String) (a b : ℕ) : String :=
  String.mk ((s.toList.drop a).take (b - a))

/-- Source `blurhash_components` (lines 77-87): returns `(size_x, size_y)`
decoded from the first character. -/
def blurhash_components (s : String) : Except Err (ℕ × ℕ) := do
  let c ← charAt s 0
  let size_info ← base83_decode (String.mk [c])
  return (size_info % 9 + 1, size_info / 9 + 1)

/-! ### Facts about the base-83 codec -/

theorem alphabet_toList_length : alphabet.toList.length = 83 := by decide

set_option maxRecDepth 100000 in
theorem alphaIndex_getD :
    ∀ d : Fin 83, alphaIndex (alphabet.toList.getD d.val ' ') = some d.val := by
  decide

theorem alphaIndex_of_mem {c : Char} (h : c ∈ alphabet.toList) :
    ∃ d, alphaIndex c = some d := by
  rcases ho : alphaIndex c with _ | d
  · rw [alphaIndex, List.indexOf?_eq_none_iff] at ho
    exact absurd (by simp) (ho c h)
  · exact ⟨d, rfl⟩

theorem getD_mem_of_lt {l : List Char} {d : ℕ} (h : d < l.length) (c : Char) :
    l.getD d c ∈ l := by
  rw [List.getD_eq_getD_get?, List.get?_eq_get h]
  exact List.get_mem l _ _

theorem b83digits_succ (v n : ℕ) :
    b83digits v (n + 1) = (v / 83 ^ n % 83) :: b83digits v n := by
  unfold b83digits
  rw [List.range_succ_eq_map]
  simp only [List.map_cons, List.map_map, Function.comp_def, Nat.succ_eq_add_one]
  congr 1
  apply List.map_congr_left
  intro a _
  have h : n + 1 - 1 - (a + 1) = n - 1 - a := by omega
  rw [h]

theorem b83digits_length (v n : ℕ) : (b83digits v n).length = n := by
  simp [b83digits]

theorem b83digits_lt (v n : ℕ) : ∀ d ∈ b83digits v n, d < 83 := by
  intro d hd
  rcases List.mem_map.mp hd with ⟨i, _, rfl⟩
  exact Nat.mod_lt _ (by norm_num)

theorem b83digits_foldl (v n : ℕ) : ∀ a : ℕ,
    (b83digits v n).foldl (fun x d => x * 83 + d) a = a * 83 ^ n + v % 83 ^ n := by
  induction n with
  | zero => simp [b83digits, Nat.mod_one]
  | succ n ih =>
    intro a
    rw [b83digits_succ, List.foldl_cons, ih]
    have h1 : v % 83 ^ (n + 1) = v / 83 ^ n % 83 * 83 ^ n + v % 83 ^ n := by
      rw [pow_succ, Nat.mod_mul]
      ring
    rw [h1, pow_succ]
    ring

theorem decode_digit_chars (ds : List ℕ) : ∀ a : ℕ, (∀ d ∈ ds, d < 83) →
    (ds.map fun d => alphabet.toList.getD d ' ').foldlM
      (fun v c =>
        match alphaIndex c with
        | some d => Except.ok (v * 83 + d)
        | none => Except.error Err.invalidSymbol)
      a = .ok (ds.foldl (fun x d => x * 83 + d) a) := by
  induction ds with
  | nil => intro a _; rfl
  | cons d ds ih =>
    intro a hall
    have hd : d < 83 := hall d (List.mem_cons_self d ds)
    have hidx := alphaIndex_getD ⟨d, hd⟩
    simp only [List.map_cons, List.foldlM_cons, hidx]
    simpa using ih (a * 83 + d) (fun x hx => hall x (List.mem_cons_of_mem _ hx))

theorem base83_decode_base83_string (v n : ℕ) (hv : v < 83 ^ n) :
    base83_decode (base83_string v n) = .ok v := by
  have h : (base83_string v n).toList = (b83digits v n).map fun d => alphabet.toList.getD d ' ' := rfl
  rw [base83_decode, h, decode_digit_chars _ 0 (b83digits_lt v n), b83digits_foldl]
  simp [Nat.mod_eq_of_lt hv]

theorem base83_string_length (v n : ℕ) : (base83_string v n).length = n := by
  show ((b83digits v n).map fun d => alphabet.toList.getD d ' ').length = n
  rw [List.length_map, b83digits_length]

theorem base83_string_mem_alphabet (v n : ℕ) :
    ∀ c ∈ (base83_string v n).toList, c ∈ alphabet.toList := by
  intro c hc
  have h : (base83_string v n).toList = (b83digits v n).map fun d => alphabet.toList.getD d ' ' := rfl
  rw [h] at hc
  rcases List.mem_map.mp hc with ⟨d, hd, rfl⟩
  exact getD_mem_of_lt (by rw [alphabet_toList_length]; exact b83digits_lt v n d hd) ' '

theorem base83_encode_ok (v n : ℕ) (hv : v < 83 ^ n) :
    base83_encode v n = .ok (base83_string v n) := by
  rw [base83_encode, if_neg]
  simp only [ne_eq, not_not]
  exact Nat.div_eq_zero_iff (Nat.pos_pow_of_pos n (by norm_num)) |>.mpr hv

theorem base83_encode_error_iff (v n : ℕ) :
    base83_encode v n = .error .encodingOverflow ↔ 83 ^ n ≤ v := by
  rw [base83_encode]
  by_cases h : v / 83 ^ n ≠ 0
  · rw [if_pos h]
    simp only [true_iff]
    rw [ne_eq, Nat.div_eq_zero_iff (Nat.pos_pow_of_pos n (by norm_num))] at h
    omega
  · rw [if_neg h]
    simp only [ne_eq, not_not] at h
    rw [Nat.div_eq_zero_iff (Nat.pos_pow_of_pos n (by norm_num))] at h
    constructor
    · intro hcontra
      exact absurd hcontra (by simp)
    · omega

end Blurhash

namespace Blurhash

/-! ### Claim C2 -/

/-- C2: for every length `n ≥ 1` and `v < 83 ^ n`, `base83_encode v n`
succeeds with a string of exactly `n` characters drawn from the
83-symbol alphabet, and `base83_decode` inverts it; moreover
`base83_encode 82 1 = "~"`, `base83_decode "~" = 82`, and
`base83_encode 0 1 = "0"`. -/
theorem C2_base83_roundtrip (n v : ℕ) (hn : 1 ≤ n) (hv : v < 83 ^ n) :
    (base83_encode v n = .ok (base83_string v n)
      ∧ (base83_string v n).length = n
      ∧ (∀ c ∈ (base83_string v n).toList, c ∈ alphabet.toList)
      ∧ base83_decode (base83_string v n) = .ok v)
    ∧ base83_encode 82 1 = .ok "~"
    ∧ base83_decode "~" = .ok 82
    ∧ base83_encode 0 1 = .ok "0" := by
  refine ⟨⟨base83_encode_ok v n hv, base83_string_length v n,
    base83_string_mem_alphabet v n, base83_decode_base83_string v n hv⟩, ?_, ?_, ?_⟩
  · rfl
  · rfl
  · rfl

theorem C2_base83_roundtrip_witness :
    1 ≤ 2 ∧ 6000 < 83 ^ 2
    ∧ ((base83_encode 6000 2 = .ok (base83_string 6000 2)
      ∧ (base83_string 6000 2).length = 2
      ∧ (∀ c ∈ (base83_string 6000 2).toList, c ∈ alphabet.toList)
      ∧ base83_decode (base83_string 6000 2) = .ok 6000)
    ∧ base83_encode 82 1 = .ok "~"
    ∧ base83_decode "~" = .ok 82
    ∧ base83_encode 0 1 = .ok "0") :=
  ⟨by norm_num, by norm_num, C2_base83_roundtrip 2 6000 (by norm_num) (by norm_num)⟩

/-! ### Claim C3 -/

/-- C3: `base83_encode value length` fails with the overflow error
exactly when `value ≥ 83 ^ length`; when it succeeds the result has
exactly `length` characters (no silent truncation). -/
theorem C3_base83_encode_overflow (v n : ℕ) :
    (base83_encode v n = .error .encodingOverflow ↔ 83 ^ n ≤ v)
    ∧ (∀ s, base83_encode v n = .ok s → s.length = n) := by
  refine ⟨base83_encode_error_iff v n, ?_⟩
  intro s hs
  by_cases hv : v < 83 ^ n
  · rw [base83_encode_ok v n hv] at hs
    cases hs
    exact base83_string_length v n
  · rw [(base83_encode_error_iff v n).mpr (by omega)] at hs
    cases hs

theorem C3_base83_encode_overflow_witness :
    base83_encode 6889 2 = .error .encodingOverflow ∧ (base83_string 7 2).length = 2 :=
  ⟨(C3_base83_encode_overflow 6889 2).1.mpr (by norm_num),
    (C3_base83_encode_overflow 7 2).2 (base83_string 7 2) (base83_encode_ok 7 2 (by norm_num))⟩

/-! ### Colour-space conversions (floats modelled by `ℝ`) -/

/-- Source `srgb_to_linear` (lines 50-57); the local rebinding
`value = float(value) / 255.0` is inlined. -/
noncomputable def srgb_to_linear (value : ℝ) : ℝ :=
  if value / 255 ≤ 0.04045 then value / 255 / 12.92
  else ((value / 255 + 0.055) / 1.055) ^ (2.4 : ℝ)

/-- Source `sign_pow` (lines 60-64): `math.copysign(math.pow(abs v, e), v)`. -/
noncomputable def sign_pow (value expo : ℝ) : ℝ :=
  if value < 0 then -(|value| ^ expo) else |value| ^ expo

/-- Source `linear_to_srgb` (lines 67-74); the local rebinding
`value = max(0.0, min(1.0, value))` is inlined, and `int(...)` of the
(non-negative) result is `Int.floor`. -/
noncomputable def linear_to_srgb (value : ℝ) : ℤ :=
  if max 0 (min 1 value) ≤ 0.0031308 then
    ⌊max 0 (min 1 value) * 12.92 * 255 + 0.5⌋
  else
    ⌊(1.055 * max 0 (min 1 value) ^ ((1 : ℝ) / 2.4) - 0.055) * 255 + 0.5⌋

/-! Comparison toolkit for rational powers: `x ^ (p/q)` compared with a
rational by raising both sides to the `q`-th power. -/

theorem rpow_nat_div_pow {x : ℝ} (hx : 0 ≤ x) (p q : ℕ) (hq : q ≠ 0) :
    (x ^ ((p : ℝ) / (q : ℝ))) ^ q = x ^ p := by
  rw [← Real.rpow_natCast (x ^ ((p : ℝ) / (q : ℝ))) q, ← Real.rpow_mul hx,
    div_mul_cancel₀, Real.rpow_natCast]
  exact_mod_cast hq

theorem le_rpow_nat_div_iff {c x : ℝ} (hc : 0 ≤ c) (hx : 0 ≤ x) (p q : ℕ) (hq : q ≠ 0) :
    c ≤ x ^ ((p : ℝ) / (q : ℝ)) ↔ c ^ q ≤ x ^ p := by
  rw [← rpow_nat_div_pow hx p q hq]
  exact (pow_le_pow_iff_left₀ hc (Real.rpow_nonneg hx _) hq).symm

theorem lt_rpow_nat_div_iff {c x : ℝ} (hc : 0 ≤ c) (hx : 0 ≤ x) (p q : ℕ) (hq : q ≠ 0) :
    c < x ^ ((p : ℝ) / (q : ℝ)) ↔ c ^ q < x ^ p := by
  rw [← rpow_nat_div_pow hx p q hq]
  exact (pow_lt_pow_iff_left₀ hc (Real.rpow_nonneg hx _) hq).symm

theorem rpow_nat_div_le_iff {c x : ℝ} (hc : 0 ≤ c) (hx : 0 ≤ x) (p q : ℕ) (hq : q ≠ 0) :
    x ^ ((p : ℝ) / (q : ℝ)) ≤ c ↔ x ^ p ≤ c ^ q := by
  rw [← rpow_nat_div_pow hx p q hq]
  exact (pow_le_pow_iff_left₀ (Real.rpow_nonneg hx _) hc hq).symm

theorem rpow_nat_div_lt_iff {c x : ℝ} (hc : 0 ≤ c) (hx : 0 ≤ x) (p q : ℕ) (hq : q ≠ 0) :
    x ^ ((p : ℝ) / (q : ℝ)) < c ↔ x ^ p < c ^ q := by
  rw [← rpow_nat_div_pow hx p q hq]
  exact (pow_lt_pow_iff_left₀ (Real.rpow_nonneg hx _) hc hq).symm

theorem exp24_eq : (2.4 : ℝ) = ((12 : ℕ) : ℝ) / ((5 : ℕ) : ℝ) := by norm_num

theorem expInv24_eq : ((1 : ℝ) / 2.4) = ((5 : ℕ) : ℝ) / ((12 : ℕ) : ℝ) := by norm_num

/-! ### Range of `linear_to_srgb` (claim C5) and the byte round trip (claim C4) -/

theorem clamp01_mem (value : ℝ) : 0 ≤ max 0 (min 1 value) ∧ max 0 (min 1 value) ≤ 1 :=
  ⟨le_max_left 0 _, max_le (by norm_num) (min_le_left 1 value)⟩

theorem linear_to_srgb_bounds (value : ℝ) :
    0 ≤ linear_to_srgb value ∧ linear_to_srgb value ≤ 255 := by
  obtain ⟨hw0, hw1⟩ := clamp01_mem value
  rw [linear_to_srgb]
  set w := max 0 (min 1 value) with hw
  by_cases hb : w ≤ 0.0031308
  · rw [if_pos hb]
    constructor
    · exact Int.floor_nonneg.mpr (by nlinarith)
    · have h256 : (⌊w * 12.92 * 255 + 0.5⌋ : ℤ) < 256 :=
        Int.floor_lt.mpr (by push_cast; nlinarith)
      omega
  · rw [if_neg hb]
    push_neg at hb
    have hX1 : w ^ ((1 : ℝ) / 2.4) ≤ 1 := Real.rpow_le_one hw0 hw1 (by norm_num)
    have hX0 : (11 / 211 : ℝ) ≤ w ^ ((1 : ℝ) / 2.4) := by
      rw [expInv24_eq, le_rpow_nat_div_iff (by norm_num) hw0 5 12 (by norm_num)]
      have h1 : ((11 / 211 : ℝ)) ^ (12 : ℕ) ≤ (0.0031308 : ℝ) ^ (5 : ℕ) := by norm_num
      have h2 : (0.0031308 : ℝ) ^ (5 : ℕ) ≤ w ^ (5 : ℕ) :=
        pow_le_pow_left₀ (by norm_num) hb.le 5
      linarith
    constructor
    · exact Int.floor_nonneg.mpr (by nlinarith)
    · have h256 : (⌊(1.055 * w ^ ((1 : ℝ) / 2.4) - 0.055) * 255 + 0.5⌋ : ℤ) < 256 :=
        Int.floor_lt.mpr (by push_cast; nlinarith)
      omega

theorem byte_roundtrip (z : ℤ) (h0 : 0 ≤ z) (h255 : z ≤ 255) :
    linear_to_srgb (srgb_to_linear (z : ℝ)) = z := by
  have hz0 : (0 : ℝ) ≤ (z : ℝ) := by exact_mod_cast h0
  have hz255 : (z : ℝ) ≤ 255 := by exact_mod_cast h255
  have hfloor : ⌊(z : ℝ) + 0.5⌋ = z := by
    rw [Int.floor_eq_iff]
    push_cast
    constructor <;> linarith
  by_cases hz10 : z ≤ 10
  · -- both conversions stay on the linear branch
    have hz10R : (z : ℝ) ≤ 10 := by exact_mod_cast hz10
    have hbranch : (z : ℝ) / 255 ≤ 0.04045 := by
      rw [div_le_iff₀ (by norm_num : (0 : ℝ) < 255)]
      nlinarith
    have hlin : srgb_to_linear (z : ℝ) = (z : ℝ) / 255 / 12.92 := by
      rw [srgb_to_linear, if_pos hbranch]
    rw [hlin, linear_to_srgb]
    have hv0 : (0 : ℝ) ≤ (z : ℝ) / 255 / 12.92 := by positivity
    have hv1 : (z : ℝ) / 255 / 12.92 ≤ 1 := by
      rw [div_div, div_le_one (by norm_num : (0 : ℝ) < 255 * 12.92)]
      nlinarith
    have hvb : (z : ℝ) / 255 / 12.92 ≤ 0.0031308 := by
      rw [div_div, div_le_iff₀ (by norm_num : (0 : ℝ) < 255 * 12.92)]
      nlinarith
    rw [min_eq_right hv1, max_eq_right hv0, if_pos hvb]
    have harg : (z : ℝ) / 255 / 12.92 * 12.92 * 255 + 0.5 = (z : ℝ) + 0.5 := by
      field_simp
      ring
    rw [harg, hfloor]
  · -- both conversions use the gamma branch
    push_neg at hz10
    have hz11 : (11 : ℝ) ≤ (z : ℝ) := by exact_mod_cast hz10
    have hdiv11 : (11 / 255 : ℝ) ≤ (z : ℝ) / 255 := by
      apply div_le_div_of_nonneg_right hz11 (by norm_num)
    have hdiv1 : (z : ℝ) / 255 ≤ 1 := by
      rw [div_le_one (by norm_num : (0 : ℝ) < 255)]
      exact hz255
    set t : ℝ := ((z : ℝ) / 255 + 0.055) / 1.055 with ht
    have ht0 : 0 < t := by
      rw [ht]
      apply div_pos _ (by norm_num)
      have : (0 : ℝ) ≤ (z : ℝ) / 255 := by positivity
      linarith
    have ht1 : t ≤ 1 := by
      rw [ht, div_le_one (by norm_num : (0 : ℝ) < 1.055)]
      linarith
    have ht11 : (1001 / 10761 : ℝ) ≤ t := by
      rw [ht, div_le_div_iff (by norm_num) (by norm_num)]
      nlinarith
    have hbranch : ¬((z : ℝ) / 255 ≤ 0.04045) := by
      push_neg
      have : (0.04045 : ℝ) < 11 / 255 := by norm_num
      linarith
    have hlin : srgb_to_linear (z : ℝ) = t ^ (2.4 : ℝ) := by
      rw [srgb_to_linear, if_neg hbranch]
    have hL0 : 0 ≤ t ^ (2.4 : ℝ) := Real.rpow_nonneg ht0.le _
    have hL1 : t ^ (2.4 : ℝ) ≤ 1 := Real.rpow_le_one ht0.le ht1 (by norm_num)
    have hLgt : (0.0031308 : ℝ) < t ^ (2.4 : ℝ) := by
      have hmono : (1001 / 10761 : ℝ) ^ (2.4 : ℝ) ≤ t ^ (2.4 : ℝ) :=
        Real.rpow_le_rpow (by norm_num) ht11 (by norm_num)
      have hbase : (0.0031308 : ℝ) < (1001 / 10761 : ℝ) ^ (2.4 : ℝ) := by
        rw [exp24_eq, lt_rpow_nat_div_iff (by norm_num) (by norm_num) 12 5 (by norm_num)]
        norm_num
      linarith
    rw [hlin, linear_to_srgb]
    rw [min_eq_right hL1, max_eq_right hL0, if_neg (by push_neg; exact hLgt)]
    have hcollapse : (t ^ (2.4 : ℝ)) ^ ((1 : ℝ) / 2.4) = t := by
      rw [← Real.rpow_mul ht0.le]
      norm_num
    rw [hcollapse]
    have harg : (1.055 * t - 0.055) * 255 + 0.5 = (z : ℝ) + 0.5 := by
      rw [ht]
      field_simp
      ring
    rw [harg, hfloor]

/-! ### Claim C4 -/

/-- C4: for every integer `b ∈ [0, 255]`,
`linear_to_srgb (srgb_to_linear b) = b` exactly. -/
theorem C4_byte_roundtrip (b : ℤ) (h0 : 0 ≤ b) (h255 : b ≤ 255) :
    linear_to_srgb (srgb_to_linear (b : ℝ)) = b :=
  byte_roundtrip b h0 h255

theorem C4_byte_roundtrip_witness :
    (0 : ℤ) ≤ 128 ∧ (128 : ℤ) ≤ 255
      ∧ linear_to_srgb (srgb_to_linear ((128 : ℤ) : ℝ)) = 128 :=
  ⟨by norm_num, by norm_num, C4_byte_roundtrip 128 (by norm_num) (by norm_num)⟩

/-! ### Claim C5 -/

/-- C5: `linear_to_srgb` is total on all (real-modelled float) inputs,
including values below 0 and above 1, and always returns an integer in
`[0, 255]`: the argument is clamped to `[0, 1]` before the threshold
test and rounding. -/
theorem C5_linear_to_srgb_total (v : ℝ) :
    0 ≤ linear_to_srgb v ∧ linear_to_srgb v ≤ 255 :=
  linear_to_srgb_bounds v

/-! ### The two decoders -/

/-- The colour-table decoding shared verbatim by the dense decoder
(lines 121-142) and the swatch decoder (lines 200-221): the DC triple
followed by the AC triples for `component in range(1, size_x*size_y)`. -/
noncomputable def decode_colours (s : String) (real_max : ℝ) (size_x size_y : ℕ) :
    Except Err (List (ℝ × ℝ × ℝ)) := do
  let dc_value ← base83_decode (strSlice s 2 6)
  let acs ← (List.range' 1 (size_x * size_y - 1)).mapM (fun component => do
    let ac ← base83_decode (strSlice s (4 + component * 2) (4 + (component + 1) * 2))
    return (sign_pow ((((ac / (19 * 19) : ℕ) : ℝ) - 9) / 9) 2 * real_max,
            sign_pow ((((ac / 19 % 19 : ℕ) : ℝ) - 9) / 9) 2 * real_max,
            sign_pow ((((ac % 19 : ℕ) : ℝ) - 9) / 9) 2 * real_max))
  return (srgb_to_linear ((dc_value / 2 ^ 16 : ℕ) : ℝ),
          srgb_to_linear ((dc_value / 2 ^ 8 % 256 : ℕ) : ℝ),
          srgb_to_linear ((dc_value % 256 : ℕ) : ℝ)) :: acs

/-- The per-point accumulation loops shared by the dense decoder
(lines 150-160) and the swatch decoder (lines 235-244): the cosine
synthesis sum at point `(x, y)`. -/
noncomputable def basis_sum (colours : List (ℝ × ℝ × ℝ)) (size_x size_y : ℕ)
    (width height : ℝ) (x y : ℝ) : ℝ × ℝ × ℝ :=
  ∑ j ∈ Finset.range size_y, ∑ i ∈ Finset.range size_x,
    (Real.cos (Real.pi * x * (i : ℝ) / width) * Real.cos (Real.pi * y * (j : ℝ) / height)) •
      colours.getD (i + j * size_x) (0, 0, 0)

/-- Source `blurhash_decode` (lines 90-175).  When `linear = false` the sRGB
integer pixels are carried as integer-valued reals. -/
noncomputable def blurhash_decode (s : String) (width height : ℕ) (punch : ℝ)
    (linear : Bool) : Except Err (List (List (ℝ × ℝ × ℝ))) := do
  if s.length < 6 then throw Err.invalidHashLength
  let c0 ← charAt s 0
  let size_info ← base83_decode (String.mk [c0])
  let size_y := size_info / 9 + 1
  let size_x := size_info % 9 + 1
  let c1 ← charAt s 1
  let quant_max_value ← base83_decode (String.mk [c1])
  let real_max_value := (((quant_max_value : ℝ) + 1) / 166) * punch
  if s.length ≠ 4 + 2 * size_x * size_y then throw Err.invalidHashLength
  let colours ← decode_colours s real_max_value size_x size_y
  return (List.range height).map fun (y : ℕ) =>
    (List.range width).map fun (x : ℕ) =>
      let pixel := basis_sum colours size_x size_y (width : ℝ) (height : ℝ) (x : ℝ) (y : ℝ)
      if linear then pixel
      else (((linear_to_srgb pixel.1 : ℤ) : ℝ), ((linear_to_srgb pixel.2.1 : ℤ) : ℝ),
            ((linear_to_srgb pixel.2.2 : ℤ) : ℝ))

/-- Source `blurhash_fake_decode` (lines 178-255): one `(x, y, (r, g, b))`
tuple per basis tile. -/
noncomputable def blurhash_fake_decode (s : String) (width height : ℕ) (punch : ℝ) :
    Except Err (List (ℤ × ℤ × (ℤ × ℤ × ℤ))) := do
  let sizes ← blurhash_components s
  let size_x := sizes.1
  let size_y := sizes.2
  let c1 ← charAt s 1
  let quant_max_value ← base83_decode (String.mk [c1])
  let real_max_value := (((quant_max_value : ℝ) + 1) / 166) * punch
  if s.length ≠ 4 + 2 * size_x * size_y then throw Err.invalidHashLength
  let colours ← decode_colours s real_max_value size_x size_y
  return (List.range (size_x * size_y)).map fun idx =>
    let c : ℕ := idx + 1
    let row : ℤ := ⌈(c : ℝ) / (size_x : ℝ)⌉
    let column : ℕ := if c % size_x ≠ 0 then c % size_x else size_x
    let row_height : ℝ := (height : ℝ) / (size_y : ℝ)
    let column_width : ℝ := (width : ℝ) / (size_x : ℝ)
    let x : ℝ := column_width / 2 + column_width * ((column : ℝ) - 1)
    let y : ℝ := row_height / 2 + row_height * ((row : ℝ) - 1)
    let pixel := basis_sum colours size_x size_y (width : ℝ) (height : ℝ) x y
    (⌊x⌋, ⌊y⌋,
      (linear_to_srgb pixel.1, linear_to_srgb pixel.2.1, linear_to_srgb pixel.2.2))

/-! ### The encoder -/

/-- The sRGB-to-linear pass of `blurhash_encode` (lines 322-337);
`image[y][x]` is modelled with a `(0,0,0)` default (the theorems only
concern rectangular grids, where every read is in range). -/
noncomputable def encode_image_linear (image : List (List (ℝ × ℝ × ℝ))) (linear : Bool) :
    List (List (ℝ × ℝ × ℝ)) :=
  if linear then image
  else
    (List.range image.length).map fun y =>
      (List.range (image.headD []).length).map fun x =>
        (srgb_to_linear ((image.getD y []).getD x (0, 0, 0)).1,
         srgb_to_linear ((image.getD y []).getD x (0, 0, 0)).2.1,
         srgb_to_linear ((image.getD y []).getD x (0, 0, 0)).2.2)

/-- One forward cosine projection of `blurhash_encode` (lines 344-359),
for basis index `(i, j)`, on the already-linearised image. -/
noncomputable def encode_component (img : List (List (ℝ × ℝ × ℝ))) (wN hN i j : ℕ) :
    ℝ × ℝ × ℝ :=
  ((∑ y ∈ Finset.range hN, ∑ x ∈ Finset.range wN,
      (if i = 0 ∧ j = 0 then (1 : ℝ) else 2)
        * Real.cos (Real.pi * (i : ℝ) * (x : ℝ) / (wN : ℝ))
        * Real.cos (Real.pi * (j : ℝ) * (y : ℝ) / (hN : ℝ))
        * ((img.getD y []).getD x (0, 0, 0)).1) / ((wN : ℝ) * (hN : ℝ)),
   (∑ y ∈ Finset.range hN, ∑ x ∈ Finset.range wN,
      (if i = 0 ∧ j = 0 then (1 : ℝ) else 2)
        * Real.cos (Real.pi * (i : ℝ) * (x : ℝ) / (wN : ℝ))
        * Real.cos (Real.pi * (j : ℝ) * (y : ℝ) / (hN : ℝ))
        * ((img.getD y []).getD x (0, 0, 0)).2.1) / ((wN : ℝ) * (hN : ℝ)),
   (∑ y ∈ Finset.range hN, ∑ x ∈ Finset.range wN,
      (if i = 0 ∧ j = 0 then (1 : ℝ) else 2)
        * Real.cos (Real.pi * (i : ℝ) * (x : ℝ) / (wN : ℝ))
        * Real.cos (Real.pi * (j : ℝ) * (y : ℝ) / (hN : ℝ))
        * ((img.getD y []).getD x (0, 0, 0)).2.2) / ((wN : ℝ) * (hN : ℝ)))

/-- The component table of `blurhash_encode` (lines 340-360):
`j` outer, `i` inner, so the DC term `(0,0)` comes first. -/
noncomputable def encode_components (img : List (List (ℝ × ℝ × ℝ))) (wN hN cx cy : ℕ) :
    List (ℝ × ℝ × ℝ) :=
  (List.range cy).flatMap fun j => (List.range cx).map fun i => encode_component img wN hN i j

/-- The `max_ac_component` accumulation (lines 341, 362-368): the maximum
absolute value over all channels of all non-DC components. -/
noncomputable def max_ac_component (comps : List (ℝ × ℝ × ℝ)) : ℝ :=
  (comps.drop 1).foldl (fun m p => max (max (max m |p.1|) |p.2.1|) |p.2.2|) 0

/-- Source `quant_max_ac_component` (lines 377-379). -/
noncomputable def quant_max_ac (m : ℝ) : ℤ :=
  max 0 (min 82 ⌊m * 166 - 0.5⌋)

/-- Source `dc_value` (lines 371-375). -/
noncomputable def encode_dc_value (dc : ℝ × ℝ × ℝ) : ℤ :=
  linear_to_srgb dc.1 * 2 ^ 16 + linear_to_srgb dc.2.1 * 2 ^ 8 + linear_to_srgb dc.2.2

/-- One quantized AC channel digit (lines 385-420 inner expression). -/
noncomputable def encode_ac_digit (f v : ℝ) : ℤ :=
  max 0 (min 18 ⌊sign_pow (v / f) 0.5 * 9 + 9.5⌋)

/-- One packed AC value `digit_r*19*19 + digit_g*19 + digit_b`
(lines 383-421). -/
noncomputable def encode_ac_value (f : ℝ) (p : ℝ × ℝ × ℝ) : ℤ :=
  encode_ac_digit f p.1 * 19 * 19 + encode_ac_digit f p.2.1 * 19 + encode_ac_digit f p.2.2

/-- Source `blurhash_encode` (lines 305-431). -/
noncomputable def blurhash_encode (image : List (List (ℝ × ℝ × ℝ)))
    (components_x components_y : ℕ) (linear : Bool) : Except Err String := do
  if components_x < 1 ∨ components_x > 9 ∨ components_y < 1 ∨ components_y > 9 then
    throw Err.invalidComponentCount
  let wN := (image.headD []).length
  let hN := image.length
  let comps := encode_components (encode_image_linear image linear) wN hN
    components_x components_y
  let quant := quant_max_ac (max_ac_component comps)
  let f : ℝ := ((quant : ℝ) + 1) / 166
  let dc_value := encode_dc_value (comps.headD (0, 0, 0))
  let ac_values := (comps.drop 1).map fun p => (encode_ac_value f p).toNat
  let h1 ← base83_encode ((components_x - 1) + (components_y - 1) * 9) 1
  let h2 ← base83_encode quant.toNat 1
  let h3 ← base83_encode dc_value.toNat 4
  let hacs ← ac_values.mapM fun a => base83_encode a 2
  return hacs.foldl (· ++ ·) (h1 ++ h2 ++ h3)

/-! ### Structural facts about the encoder output -/

theorem quant_max_ac_bounds (m : ℝ) : 0 ≤ quant_max_ac m ∧ quant_max_ac m ≤ 82 :=
  ⟨le_max_left 0 _, max_le (by norm_num) (min_le_left 82 _)⟩

theorem encode_ac_digit_bounds (f v : ℝ) :
    0 ≤ encode_ac_digit f v ∧ encode_ac_digit f v ≤ 18 :=
  ⟨le_max_left 0 _, max_le (by norm_num) (min_le_left 18 _)⟩

theorem encode_ac_value_bounds (f : ℝ) (p : ℝ × ℝ × ℝ) :
    0 ≤ encode_ac_value f p ∧ encode_ac_value f p ≤ 6858 := by
  obtain ⟨h1a, h1b⟩ := encode_ac_digit_bounds f p.1
  obtain ⟨h2a, h2b⟩ := encode_ac_digit_bounds f p.2.1
  obtain ⟨h3a, h3b⟩ := encode_ac_digit_bounds f p.2.2
  unfold encode_ac_value
  omega

theorem encode_dc_value_bounds (dc : ℝ × ℝ × ℝ) :
    0 ≤ encode_dc_value dc ∧ encode_dc_value dc < 16777216 := by
  obtain ⟨h1a, h1b⟩ := linear_to_srgb_bounds dc.1
  obtain ⟨h2a, h2b⟩ := linear_to_srgb_bounds dc.2.1
  obtain ⟨h3a, h3b⟩ := linear_to_srgb_bounds dc.2.2
  unfold encode_dc_value
  omega

theorem encode_components_length (img : List (List (ℝ × ℝ × ℝ))) (wN hN cx cy : ℕ) :
    (encode_components img wN hN cx cy).length = cx * cy := by
  unfold encode_components
  rw [List.length_flatMap]
  have h2 : (List.range cy).map (fun _ => cx) = List.replicate cy cx := by
    rw [List.map_const', List.length_range]
  have h : (List.map (List.length ∘ fun j => (List.range cx).map
      fun i => encode_component img wN hN i j) (List.range cy)) = List.replicate cy cx := by
    rw [← h2]
    apply List.map_congr_left
    intro a _
    simp
  rw [h, List.sum_replicate, smul_eq_mul, Nat.mul_comm]

theorem mapM_ok {α β : Type} (f : α → Except Err β) (g : α → β) :
    ∀ l : List α, (∀ a ∈ l, f a = .ok (g a)) → l.mapM f = .ok (l.map g) := by
  intro l
  induction l with
  | nil => intro _; rfl
  | cons a l ih =>
    intro h
    simp only [List.mapM_cons, h a (List.mem_cons_self a l),
      ih (fun x hx => h x (List.mem_cons_of_mem _ hx)), List.map_cons]
    rfl

theorem string_toList_eq (s : String) : s.toList = s.data := rfl

theorem foldl_append_data (l : List String) :
    ∀ acc : String, (l.foldl (· ++ ·) acc).data = acc.data ++ (l.map String.data).flatten := by
  induction l with
  | nil => intro acc; simp
  | cons s l ih =>
    intro acc
    rw [List.foldl_cons, ih (acc ++ s)]
    simp [String.data_append]

theorem foldl_append_length (l : List String) (acc : String) :
    (l.foldl (· ++ ·) acc).length = acc.length + (l.map String.length).sum := by
  have h : (l.foldl (· ++ ·) acc).data.length
      = acc.data.length + ((l.map String.data).flatten).length := by
    rw [foldl_append_data l acc, List.length_append]
  have hlen : ∀ t : String, t.length = t.data.length := fun t => rfl
  rw [hlen, h, List.length_flatten]
  congr 1
  rw [List.map_map]
  rfl

theorem b83digits_one (v : ℕ) (hv : v < 83) : b83digits v 1 = [v] := by
  unfold b83digits
  have hr : List.range 1 = [0] := rfl
  rw [hr, List.map_cons, List.map_nil]
  norm_num [Nat.mod_eq_of_lt hv]

theorem base83_string_one (v : ℕ) (hv : v < 83) :
    base83_string v 1 = String.mk [alphabet.toList.getD v ' '] := by
  unfold base83_string
  rw [b83digits_one v hv, List.map_cons, List.map_nil]

/-- The shape of every successful `blurhash_encode` result. -/
theorem blurhash_encode_ok_structure (image : List (List (ℝ × ℝ × ℝ))) (cx cy : ℕ)
    (linear : Bool) (hcx1 : 1 ≤ cx) (hcx9 : cx ≤ 9) (hcy1 : 1 ≤ cy) (hcy9 : cy ≤ 9) :
    ∃ (q d : ℕ) (acs : List ℕ),
      q < 83 ∧ d < 83 ^ 4 ∧ (∀ a ∈ acs, a < 83 ^ 2) ∧ acs.length = cx * cy - 1 ∧
      blurhash_encode image cx cy linear =
        .ok ((acs.map fun a => base83_string a 2).foldl (· ++ ·)
          (base83_string ((cx - 1) + (cy - 1) * 9) 1 ++ base83_string q 1
            ++ base83_string d 4)) := by
  have hguard : ¬(cx < 1 ∨ cx > 9 ∨ cy < 1 ∨ cy > 9) := by omega
  set wN := (image.headD []).length with hwN
  set hN := image.length with hhN
  set comps := encode_components (encode_image_linear image linear) wN hN cx cy with hcomps
  set quant := quant_max_ac (max_ac_component comps) with hquant
  set f : ℝ := ((quant : ℝ) + 1) / 166 with hf
  set dc_value := encode_dc_value (comps.headD (0, 0, 0)) with hdc
  set ac_values := (comps.drop 1).map (fun p => (encode_ac_value f p).toNat) with hacv
  obtain ⟨hq0, hq82⟩ := quant_max_ac_bounds (max_ac_component comps)
  obtain ⟨hd0, hdlt⟩ := encode_dc_value_bounds (comps.headD (0, 0, 0))
  refine ⟨quant.toNat, dc_value.toNat, ac_values, by omega, ?_, ?_, ?_, ?_⟩
  · have h834 : (83 : ℕ) ^ 4 = 47458321 := by norm_num
    omega
  · intro a ha
    rw [hacv] at ha
    rcases List.mem_map.mp ha with ⟨p, _, rfl⟩
    obtain ⟨hv0, hv1⟩ := encode_ac_value_bounds f p
    have h832 : (83 : ℕ) ^ 2 = 6889 := by norm_num
    omega
  · rw [hacv, List.length_map, List.length_drop, hcomps, encode_components_length]
  · have e1 : base83_encode ((cx - 1) + (cy - 1) * 9) 1
        = .ok (base83_string ((cx - 1) + (cy - 1) * 9) 1) :=
      base83_encode_ok _ _ (by norm_num; omega)
    have e2 : base83_encode quant.toNat 1 = .ok (base83_string quant.toNat 1) :=
      base83_encode_ok _ _ (by norm_num; omega)
    have e3 : base83_encode dc_value.toNat 4 = .ok (base83_string dc_value.toNat 4) :=
      base83_encode_ok _ _ (by norm_num; omega)
    have e4 : ac_values.mapM (fun a => base83_encode a 2)
        = .ok (ac_values.map fun a => base83_string a 2) := by
      apply mapM_ok
      intro a ha
      apply base83_encode_ok
      rw [hacv] at ha
      rcases List.mem_map.mp ha with ⟨p, _, rfl⟩
      obtain ⟨hv0, hv1⟩ := encode_ac_value_bounds f p
      have h832 : (83 : ℕ) ^ 2 = 6889 := by norm_num
      omega
    simp only [blurhash_encode, if_neg hguard, ← hwN, ← hhN, ← hcomps, ← hquant, ← hf,
      ← hdc, ← hacv, e1, e2, e3, e4]
    rfl

theorem except_bind_ok {α β : Type} (a : α) (f : α → Except Err β) :
    (Except.ok a >>= f : Except Err β) = f a := rfl

theorem except_bind_error {α β : Type} (e : Err) (f : α → Except Err β) :
    (Except.error e >>= f : Except Err β) = .error e := rfl

theorem except_pure_eq {α : Type} (a : α) : (pure a : Except Err α) = .ok a := rfl

theorem base83_decode_single (hv : ℕ) (h83 : hv < 83) :
    base83_decode (String.mk [alphabet.toList.getD hv ' ']) = .ok hv := by
  have hidx := alphaIndex_getD ⟨hv, h83⟩
  unfold base83_decode
  have h : (String.mk [alphabet.toList.getD hv ' ']).toList
      = [alphabet.toList.getD hv ' '] := rfl
  rw [h]
  simp only [List.foldlM_cons, List.foldlM_nil, hidx, except_bind_ok, except_pure_eq]
  norm_num

theorem blurhash_components_header (hv : ℕ) (h83 : hv < 83) (rest : List Char) (s : String)
    (hs : s.data = alphabet.toList.getD hv ' ' :: rest) :
    blurhash_components s = .ok (hv % 9 + 1, hv / 9 + 1) := by
  have hchar : charAt s 0 = .ok (alphabet.toList.getD hv ' ') := by
    unfold charAt
    rw [string_toList_eq, hs]
    rfl
  simp only [blurhash_components, hchar, except_bind_ok, base83_decode_single hv h83,
    except_pure_eq]

/-! ### Claim C6 -/

/-- C6: for every (non-empty, rectangular) image grid and `cx, cy ∈ [1, 9]`,
`blurhash_components` applied to the token produced by
`blurhash_encode image cx cy` returns exactly `(cx, cy)`: the reader's
`(size_info % 9 + 1, size_info / 9 + 1)` inverts the encoder's header
byte `(cx - 1) + (cy - 1) * 9`. -/
theorem C6_components_roundtrip (image : List (List (ℝ × ℝ × ℝ))) (cx cy : ℕ)
    (linear : Bool) (hcx1 : 1 ≤ cx) (hcx9 : cx ≤ 9) (hcy1 : 1 ≤ cy) (hcy9 : cy ≤ 9)
    (hh : 0 < image.length) (hw : 0 < (image.headD []).length)
    (hrect : ∀ row ∈ image, row.length = (image.headD []).length) :
    ∃ t, blurhash_encode image cx cy linear = .ok t
      ∧ blurhash_components t = .ok (cx, cy) := by
  obtain ⟨q, d, acs, hq, hd, hacs, hlen, henc⟩ :=
    blurhash_encode_ok_structure image cx cy linear hcx1 hcx9 hcy1 hcy9
  refine ⟨_, henc, ?_⟩
  have hv83 : (cx - 1) + (cy - 1) * 9 < 83 := by omega
  have hcomp := blurhash_components_header ((cx - 1) + (cy - 1) * 9) hv83
    ((base83_string q 1).data ++ (base83_string d 4).data
      ++ ((acs.map fun a => base83_string a 2).map String.data).flatten)
    ((acs.map fun a => base83_string a 2).foldl (· ++ ·)
      (base83_string ((cx - 1) + (cy - 1) * 9) 1 ++ base83_string q 1 ++ base83_string d 4))
    (by
      rw [foldl_append_data, String.data_append, String.data_append,
        base83_string_one _ hv83]
      simp [List.append_assoc])
  rw [hcomp]
  have hx : ((cx - 1) + (cy - 1) * 9) % 9 + 1 = cx := by omega
  have hy : ((cx - 1) + (cy - 1) * 9) / 9 + 1 = cy := by omega
  rw [hx, hy]

theorem C6_components_roundtrip_witness :
    ∃ t, blurhash_encode [[(0, 0, 0), (0, 0, 0)], [(0, 0, 0), (0, 0, 0)]] 3 2 false = .ok t
      ∧ blurhash_components t = .ok (3, 2) :=
  C6_components_roundtrip [[(0, 0, 0), (0, 0, 0)], [(0, 0, 0), (0, 0, 0)]] 3 2 false
    (by norm_num) (by norm_num) (by norm_num) (by norm_num) (by norm_num) (by norm_num)
    (by intro row hrow; fin_cases hrow <;> rfl)

/-! ### Claim C7 -/

/-- C7: every token produced by `blurhash_encode` with `cx, cy ∈ [1, 9]`
has length exactly `4 + 2 * cx * cy` (1 size char + 1 quantised-max char
+ 4 DC chars + 2 chars per each of the `cx * cy - 1` AC coefficients),
and every character belongs to the 83-symbol alphabet. -/
theorem C7_token_structure (image : List (List (ℝ × ℝ × ℝ))) (cx cy : ℕ)
    (linear : Bool) (hcx1 : 1 ≤ cx) (hcx9 : cx ≤ 9) (hcy1 : 1 ≤ cy) (hcy9 : cy ≤ 9)
    (hh : 0 < image.length) (hw : 0 < (image.headD []).length)
    (hrect : ∀ row ∈ image, row.length = (image.headD []).length) :
    ∃ t, blurhash_encode image cx cy linear = .ok t
      ∧ t.length = 4 + 2 * (cx * cy)
      ∧ ∀ c ∈ t.toList, c ∈ alphabet.toList := by
  obtain ⟨q, d, acs, hq, hd, hacs, hlen, henc⟩ :=
    blurhash_encode_ok_structure image cx cy linear hcx1 hcx9 hcy1 hcy9
  refine ⟨_, henc, ?_, ?_⟩
  · rw [foldl_append_length, String.length_append, String.length_append,
      base83_string_length, base83_string_length, base83_string_length]
    have hmap : (acs.map fun a => base83_string a 2).map String.length
        = List.replicate acs.length 2 := by
      rw [List.map_map, ← List.map_const' acs 2]
      apply List.map_congr_left
      intro a _
      exact base83_string_length a 2
    rw [hmap, List.sum_replicate, smul_eq_mul, hlen]
    have hpos : 1 ≤ cx * cy := Nat.mul_pos hcx1 hcy1
    omega
  · intro c hc
    rw [string_toList_eq, foldl_append_data, String.data_append, String.data_append] at hc
    rcases List.mem_append.mp hc with hc' | hc'
    · rcases List.mem_append.mp hc' with hc'' | hc''
      · rcases List.mem_append.mp hc'' with hc3 | hc3
        · exact base83_string_mem_alphabet _ 1 c hc3
        · exact base83_string_mem_alphabet _ 1 c hc3
      · exact base83_string_mem_alphabet _ 4 c hc''
    · rcases List.mem_flatten.mp hc' with ⟨l, hl, hcl⟩
      rcases List.mem_map.mp hl with ⟨t, ht, rfl⟩
      rcases List.mem_map.mp ht with ⟨a, _, rfl⟩
      exact base83_string_mem_alphabet _ 2 c hcl

theorem C7_token_structure_witness :
    ∃ t, blurhash_encode [[(10, 20, 30)]] 2 2 false = .ok t
      ∧ t.length = 4 + 2 * (2 * 2)
      ∧ ∀ c ∈ t.toList, c ∈ alphabet.toList :=
  C7_token_structure [[(10, 20, 30)]] 2 2 false
    (by norm_num) (by norm_num) (by norm_num) (by norm_num) (by norm_num) (by norm_num)
    (by intro row hrow; fin_cases hrow <;> rfl)

/-! ### Decode-path evaluation helpers -/

theorem charAt_zero (s : String) (c0 : Char) (l : List Char) (hdata : s.data = c0 :: l) :
    charAt s 0 = .ok c0 := by
  unfold charAt
  rw [string_toList_eq, hdata]
  rfl

theorem charAt_one (s : String) (c0 c1 : Char) (l : List Char)
    (hdata : s.data = c0 :: c1 :: l) :
    charAt s 1 = .ok c1 := by
  unfold charAt
  rw [string_toList_eq, hdata]
  rfl

theorem base83_decode_one (c : Char) (v : ℕ) (h : alphaIndex c = some v) :
    base83_decode (String.mk [c]) = .ok v := by
  unfold base83_decode
  have hl : (String.mk [c]).toList = [c] := rfl
  rw [hl]
  simp only [List.foldlM_cons, List.foldlM_nil, h, except_bind_ok, except_pure_eq]
  norm_num

theorem base83_decode_ok_of_mem (s : String)
    (hall : ∀ c ∈ s.toList, c ∈ alphabet.toList) :
    ∃ v, base83_decode s = .ok v := by
  unfold base83_decode
  suffices hgen : ∀ (l : List Char) (a : ℕ), (∀ c ∈ l, c ∈ alphabet.toList) →
      ∃ v, l.foldlM
        (fun v c =>
          match alphaIndex c with
          | some d => Except.ok (v * 83 + d)
          | none => Except.error Err.invalidSymbol)
        a = .ok v from
    hgen s.toList 0 hall
  intro l
  induction l with
  | nil => intro a _; exact ⟨a, rfl⟩
  | cons c l ih =>
    intro a hall'
    obtain ⟨d, hd⟩ := alphaIndex_of_mem (hall' c (List.mem_cons_self c l))
    obtain ⟨v, hv⟩ := ih (a * 83 + d) (fun x hx => hall' x (List.mem_cons_of_mem _ hx))
    refine ⟨v, ?_⟩
    simp only [List.foldlM_cons, hd, except_bind_ok]
    exact hv

theorem strSlice_chars_subset (s : String) (a b : ℕ) :
    ∀ c ∈ (strSlice s a b).toList, c ∈ s.toList := by
  intro c hc
  have h : (strSlice s a b).toList = (s.toList.drop a).take (b - a) := rfl
  rw [h] at hc
  exact List.mem_of_mem_drop (List.mem_of_mem_take hc)

/-- For a DC-only (1×1) hash, the colour table is the DC triple alone,
independently of `real_max` (and hence of `punch`). -/
theorem decode_colours_dc_only (s : String) (rm : ℝ) (dc : ℕ)
    (hdc : base83_decode (strSlice s 2 6) = .ok dc) :
    decode_colours s rm 1 1 =
      .ok [(srgb_to_linear ((dc / 2 ^ 16 : ℕ) : ℝ),
            srgb_to_linear ((dc / 2 ^ 8 % 256 : ℕ) : ℝ),
            srgb_to_linear ((dc % 256 : ℕ) : ℝ))] := by
  unfold decode_colours
  have hr : List.range' 1 (1 * 1 - 1) = [] := rfl
  rw [hr]
  simp only [List.mapM_nil, hdc, except_bind_ok, except_pure_eq]

/-! ### Claim C10 -/

/-- C10: for a valid hash whose first character decodes to 0 (a 1×1
component grid, DC only), both decode paths give outputs that are
independent of the punch value: punch scales only AC coefficients. -/
theorem C10_dc_only_punch_invariant (s : String) (w h : ℕ) (p p' : ℝ) (lin : Bool)
    (c0 c1 : Char) (rest : List Char) (hdata : s.data = c0 :: c1 :: rest)
    (h0 : alphaIndex c0 = some 0)
    (hall : ∀ c ∈ s.toList, c ∈ alphabet.toList) (hlen : s.length = 6) :
    blurhash_decode s w h p lin = blurhash_decode s w h p' lin
    ∧ blurhash_fake_decode s w h p = blurhash_fake_decode s w h p' := by
  have hc1mem : c1 ∈ alphabet.toList := by
    apply hall
    rw [string_toList_eq, hdata]
    exact List.mem_cons_of_mem _ (List.mem_cons_self c1 rest)
  obtain ⟨q, h1⟩ := alphaIndex_of_mem hc1mem
  obtain ⟨dc, hdc⟩ := base83_decode_ok_of_mem (strSlice s 2 6)
    (fun c hc => hall c (strSlice_chars_subset s 2 6 c hc))
  have hch0 := charAt_zero s c0 (c1 :: rest) hdata
  have hch1 := charAt_one s c0 c1 rest hdata
  have hd0 := base83_decode_one c0 0 h0
  have hd1 := base83_decode_one c1 q h1
  constructor
  · simp only [blurhash_decode, hlen, hch0, hd0, hch1, hd1, except_bind_ok,
      decode_colours_dc_only s _ dc hdc, except_pure_eq]
  · have hcomp : blurhash_components s = .ok (1, 1) := by
      simp only [blurhash_components, hch0, hd0, except_bind_ok, except_pure_eq]
    simp only [blurhash_fake_decode, hcomp, hch1, hd1, except_bind_ok, hlen,
      decode_colours_dc_only s _ dc hdc, except_pure_eq]

theorem C10_dc_only_punch_invariant_witness :
    blurhash_decode "00JJJJ" 2 2 1 false = blurhash_decode "00JJJJ" 2 2 3 false
    ∧ blurhash_fake_decode "00JJJJ" 2 2 1 = blurhash_fake_decode "00JJJJ" 2 2 3 :=
  C10_dc_only_punch_invariant "00JJJJ" 2 2 1 3 false '0' '0' ['J', 'J', 'J', 'J']
    rfl (by decide) (by decide) rfl

/-! ### Length-error behaviour of the decode paths -/

theorem except_throw_eq {α : Type} (e : Err) : (throw e : Except Err α) = .error e := rfl

theorem blurhash_decode_short (s : String) (w h : ℕ) (p : ℝ) (lin : Bool)
    (hs : s.length < 6) :
    blurhash_decode s w h p lin = .error .invalidHashLength := by
  simp only [blurhash_decode, if_pos hs, except_throw_eq, except_bind_error]

theorem blurhash_decode_mismatch (s : String) (w h : ℕ) (p : ℝ) (lin : Bool)
    (c0 c1 : Char) (rest : List Char) (hdata : s.data = c0 :: c1 :: rest)
    (v0 q : ℕ) (h0 : alphaIndex c0 = some v0) (h1 : alphaIndex c1 = some q)
    (h6 : 6 ≤ s.length) (hmis : s.length ≠ 4 + 2 * (v0 % 9 + 1) * (v0 / 9 + 1)) :
    blurhash_decode s w h p lin = .error .invalidHashLength := by
  have hshort : ¬(s.length < 6) := by omega
  simp only [blurhash_decode, if_neg hshort, charAt_zero s c0 (c1 :: rest) hdata,
    base83_decode_one c0 v0 h0, charAt_one s c0 c1 rest hdata,
    base83_decode_one c1 q h1, except_bind_ok, if_pos hmis, except_throw_eq,
    except_bind_error, pure_bind]

theorem blurhash_fake_decode_mismatch (s : String) (w h : ℕ) (p : ℝ)
    (c0 c1 : Char) (rest : List Char) (hdata : s.data = c0 :: c1 :: rest)
    (v0 q : ℕ) (h0 : alphaIndex c0 = some v0) (h1 : alphaIndex c1 = some q)
    (hmis : s.length ≠ 4 + 2 * (v0 % 9 + 1) * (v0 / 9 + 1)) :
    blurhash_fake_decode s w h p = .error .invalidHashLength := by
  have hcomp : blurhash_components s = .ok (v0 % 9 + 1, v0 / 9 + 1) := by
    simp only [blurhash_components, charAt_zero s c0 (c1 :: rest) hdata,
      base83_decode_one c0 v0 h0, except_bind_ok, except_pure_eq]
  simp only [blurhash_fake_decode, hcomp, charAt_one s c0 c1 rest hdata,
    base83_decode_one c1 q h1, except_bind_ok, if_pos hmis, except_throw_eq,
    except_bind_error, pure_bind]

theorem blurhash_fake_decode_one_char (s : String) (w h : ℕ) (p : ℝ)
    (c0 : Char) (hdata : s.data = [c0]) (v0 : ℕ) (h0 : alphaIndex c0 = some v0) :
    blurhash_fake_decode s w h p = .error .indexError := by
  have hcomp : blurhash_components s = .ok (v0 % 9 + 1, v0 / 9 + 1) := by
    simp only [blurhash_components, charAt_zero s c0 [] hdata,
      base83_decode_one c0 v0 h0, except_bind_ok, except_pure_eq]
  have hch1 : charAt s 1 = .error .indexError := by
    unfold charAt
    rw [string_toList_eq, hdata]
    rfl
  simp only [blurhash_fake_decode, hcomp, hch1, except_bind_ok, except_bind_error]

/-! ### Claim C8 (corrected) -/

/-- C8 counterexample: the swatch decoder applied to the 1-character
hash `"0"` (a character of the alphabet, length < 6) raises the string
IndexError of `blurhash[1]`, not the InvalidHashLength `ValueError`:
the swatch path has no `len < 6` check of its own. -/
theorem C8_counterexample :
    blurhash_fake_decode "0" 32 32 1 = .error .indexError
    ∧ Err.indexError ≠ Err.invalidHashLength := by
  constructor
  · exact blurhash_fake_decode_one_char "0" 32 32 1 '0' rfl 0 (by decide)
  · decide

/-- C8 amended: for every hash whose characters are in the alphabet and
whose header is readable, `blurhash_decode` raises InvalidHashLength
whenever the length is `< 6` and whenever it differs from
`4 + 2*size_x*size_y`; `blurhash_fake_decode` raises InvalidHashLength
whenever its length differs from `4 + 2*size_x*size_y` — which covers
every length in `[2, 6)` — but on a 1-character hash it raises an
IndexError instead, since it never performs the `len < 6` check. -/
theorem C8_decode_length_errors (s : String) (w h : ℕ) (p : ℝ) (lin : Bool)
    (sx sy : ℕ) (hcomp : blurhash_components s = .ok (sx, sy))
    (hall : ∀ c ∈ s.toList, c ∈ alphabet.toList) :
    (s.length < 6 → blurhash_decode s w h p lin = .error .invalidHashLength)
    ∧ (s.length ≠ 4 + 2 * sx * sy →
        blurhash_decode s w h p lin = .error .invalidHashLength)
    ∧ (2 ≤ s.length → s.length ≠ 4 + 2 * sx * sy →
        blurhash_fake_decode s w h p = .error .invalidHashLength)
    ∧ (s.length = 1 → blurhash_fake_decode s w h p = .error .indexError) := by
  have hlen_eq : s.length = s.data.length := rfl
  rcases hd : s.data with _ | ⟨c0, rest0⟩
  · exfalso
    have hch : charAt s 0 = .error .indexError := by
      unfold charAt
      rw [string_toList_eq, hd]
      rfl
    rw [blurhash_components] at hcomp
    simp only [hch, except_bind_error] at hcomp
    exact Except.noConfusion hcomp
  · have hc0mem : c0 ∈ alphabet.toList := by
      apply hall
      rw [string_toList_eq, hd]
      exact List.mem_cons_self c0 rest0
    obtain ⟨v0, h0⟩ := alphaIndex_of_mem hc0mem
    have hcomp' : blurhash_components s = .ok (v0 % 9 + 1, v0 / 9 + 1) := by
      simp only [blurhash_components, charAt_zero s c0 rest0 hd,
        base83_decode_one c0 v0 h0, except_bind_ok, except_pure_eq]
    rw [hcomp'] at hcomp
    have hsx : sx = v0 % 9 + 1 := by
      cases hcomp
      rfl
    have hsy : sy = v0 / 9 + 1 := by
      cases hcomp
      rfl
    subst hsx
    subst hsy
    refine ⟨fun hshort => blurhash_decode_short s w h p lin hshort, ?_, ?_, ?_⟩
    · intro hmis
      by_cases h6 : s.length < 6
      · exact blurhash_decode_short s w h p lin h6
      · push_neg at h6
        rcases hr : rest0 with _ | ⟨c1, rest1⟩
        · exfalso
          rw [hlen_eq, hd, hr] at h6
          simp at h6
        · have hc1mem : c1 ∈ alphabet.toList := by
            apply hall
            rw [string_toList_eq, hd, hr]
            exact List.mem_cons_of_mem _ (List.mem_cons_self c1 rest1)
          obtain ⟨q, h1⟩ := alphaIndex_of_mem hc1mem
          exact blurhash_decode_mismatch s w h p lin c0 c1 rest1 (by rw [hd, hr])
            v0 q h0 h1 h6 hmis
    · intro h2 hmis
      rcases hr : rest0 with _ | ⟨c1, rest1⟩
      · exfalso
        rw [hlen_eq, hd, hr] at h2
        simp at h2
      · have hc1mem : c1 ∈ alphabet.toList := by
          apply hall
          rw [string_toList_eq, hd, hr]
          exact List.mem_cons_of_mem _ (List.mem_cons_self c1 rest1)
        obtain ⟨q, h1⟩ := alphaIndex_of_mem hc1mem
        exact blurhash_fake_decode_mismatch s w h p c0 c1 rest1 (by rw [hd, hr])
          v0 q h0 h1 hmis
    · intro h1len
      have hrnil : rest0 = [] := by
        rw [hlen_eq, hd] at h1len
        simpa using h1len
      exact blurhash_fake_decode_one_char s w h p c0 (by rw [hd, hrnil]) v0 h0

theorem C8_decode_length_errors_witness :
    ((4 : ℕ) < 6 → blurhash_decode "0000" 8 8 1 false = .error .invalidHashLength)
    ∧ ((4 : ℕ) ≠ 4 + 2 * 1 * 1 →
        blurhash_decode "0000" 8 8 1 false = .error .invalidHashLength)
    ∧ ((2 : ℕ) ≤ 4 → (4 : ℕ) ≠ 4 + 2 * 1 * 1 →
        blurhash_fake_decode "0000" 8 8 1 = .error .invalidHashLength)
    ∧ ((4 : ℕ) = 1 → blurhash_fake_decode "0000" 8 8 1 = .error .indexError) := by
  have h := C8_decode_length_errors "0000" 8 8 1 false 1 1 rfl (by decide)
  exact h

/-! ### Claim C9: the swatch decoder against the claim's tile formulas -/

theorem mapM_ok_exists {α β : Type} (f : α → Except Err β) :
    ∀ l : List α, (∀ a ∈ l, ∃ b, f a = .ok b) → ∃ bs, l.mapM f = .ok bs := by
  intro l
  induction l with
  | nil => intro _; exact ⟨[], rfl⟩
  | cons a l ih =>
    intro h
    obtain ⟨b, hb⟩ := h a (List.mem_cons_self a l)
    obtain ⟨bs, hbs⟩ := ih (fun x hx => h x (List.mem_cons_of_mem _ hx))
    refine ⟨b :: bs, ?_⟩
    simp only [List.mapM_cons, hb, hbs, except_bind_ok, except_pure_eq]

theorem decode_colours_ok (s : String) (rm : ℝ) (sx sy : ℕ)
    (hall : ∀ c ∈ s.toList, c ∈ alphabet.toList) :
    ∃ colours, decode_colours s rm sx sy = .ok colours := by
  obtain ⟨dc, hdc⟩ := base83_decode_ok_of_mem (strSlice s 2 6)
    (fun c hc => hall c (strSlice_chars_subset s 2 6 c hc))
  obtain ⟨acs, hacs⟩ := mapM_ok_exists
    (fun component => do
      let ac ← base83_decode (strSlice s (4 + component * 2) (4 + (component + 1) * 2))
      return (sign_pow ((((ac / (19 * 19) : ℕ) : ℝ) - 9) / 9) 2 * rm,
              sign_pow ((((ac / 19 % 19 : ℕ) : ℝ) - 9) / 9) 2 * rm,
              sign_pow ((((ac % 19 : ℕ) : ℝ) - 9) / 9) 2 * rm))
    (List.range' 1 (sx * sy - 1)) (by
    intro comp _
    obtain ⟨v, hv⟩ := base83_decode_ok_of_mem
      (strSlice s (4 + comp * 2) (4 + (comp + 1) * 2))
      (fun c hc => hall c (strSlice_chars_subset s _ _ c hc))
    refine ⟨(sign_pow ((((v / (19 * 19) : ℕ) : ℝ) - 9) / 9) 2 * rm,
             sign_pow ((((v / 19 % 19 : ℕ) : ℝ) - 9) / 9) 2 * rm,
             sign_pow ((((v % 19 : ℕ) : ℝ) - 9) / 9) 2 * rm), ?_⟩
    simp only [hv, except_bind_ok, except_pure_eq])
  simp only [except_pure_eq] at hacs
  refine ⟨(srgb_to_linear ((dc / 2 ^ 16 : ℕ) : ℝ),
           srgb_to_linear ((dc / 2 ^ 8 % 256 : ℕ) : ℝ),
           srgb_to_linear ((dc % 256 : ℕ) : ℝ)) :: acs, ?_⟩
  simp only [decode_colours, hdc, hacs, except_bind_ok, except_pure_eq]

/-- Python `math.ceil(c / size_x)` on naturals `1 ≤ c` equals the ceiling
division `(c + size_x - 1) / size_x`. -/
theorem int_ceil_nat_div (c sx : ℕ) (hc : 1 ≤ c) (hsx : 0 < sx) :
    ⌈(c : ℝ) / (sx : ℝ)⌉ = (((c + sx - 1) / sx : ℕ) : ℤ) := by
  have hsxR : (0 : ℝ) < (sx : ℝ) := by exact_mod_cast hsx
  set k := (c + sx - 1) / sx with hk
  have h1 : sx * k + (c + sx - 1) % sx = c + sx - 1 := Nat.div_add_mod _ _
  have hmod : (c + sx - 1) % sx < sx := Nat.mod_lt _ hsx
  have hup : c ≤ sx * k := by
    generalize sx * k = m at h1
    omega
  have hup2 : sx * k < c + sx := by
    generalize sx * k = m at h1 ⊢
    omega
  have hupR : (c : ℝ) ≤ (sx : ℝ) * (k : ℝ) := by exact_mod_cast hup
  have hup2R : (sx : ℝ) * (k : ℝ) < (c : ℝ) + (sx : ℝ) := by exact_mod_cast hup2
  rw [Int.ceil_eq_iff]
  constructor
  · push_cast
    rw [lt_div_iff₀ hsxR]
    nlinarith
  · push_cast
    rw [div_le_iff₀ hsxR]
    nlinarith

/-- The swatch tuple predicted by the claim's formulas (spec 4.6):
1-indexed tile `c`, `row = ceil(c / size_x)` taken as the ceiling
division, `column = c mod size_x` wrapping to `size_x` when the
remainder is 0, centre `(column_width/2 + column_width*(column-1),
row_height/2 + row_height*(row-1))` truncated to ints, and the colour
given by the dense decoder's cosine basis sum at that centre. -/
noncomputable def swatch_tile_spec (colours : List (ℝ × ℝ × ℝ)) (size_x size_y : ℕ)
    (width height : ℕ) (c : ℕ) : ℤ × ℤ × (ℤ × ℤ × ℤ) :=
  let row : ℕ := (c + size_x - 1) / size_x
  let column : ℕ := if c % size_x = 0 then size_x else c % size_x
  let column_width : ℝ := (width : ℝ) / (size_x : ℝ)
  let row_height : ℝ := (height : ℝ) / (size_y : ℝ)
  let x : ℝ := column_width / 2 + column_width * ((column : ℝ) - 1)
  let y : ℝ := row_height / 2 + row_height * ((row : ℝ) - 1)
  let colour := basis_sum colours size_x size_y (width : ℝ) (height : ℝ) x y
  (⌊x⌋, ⌊y⌋, (linear_to_srgb colour.1, linear_to_srgb colour.2.1, linear_to_srgb colour.2.2))

/-- C9: on a valid hash declaring a `size_x × size_y` grid, the swatch
decoder returns exactly `size_x * size_y` tuples in row-major tile
order, each matching the claim's row/column/centre formulas, with the
colour produced by the dense decoder's cosine basis sum (on the same
decoded coefficient table) at that single point. -/
theorem C9_fake_decode_tiles (s : String) (w h : ℕ) (p : ℝ)
    (c0 c1 : Char) (rest : List Char) (hdata : s.data = c0 :: c1 :: rest)
    (v0 q : ℕ) (h0 : alphaIndex c0 = some v0) (h1 : alphaIndex c1 = some q)
    (hall : ∀ c ∈ s.toList, c ∈ alphabet.toList)
    (hlen : s.length = 4 + 2 * (v0 % 9 + 1) * (v0 / 9 + 1))
    (hw : 0 < w) (hh : 0 < h) :
    ∃ colours,
      decode_colours s ((((q : ℕ) : ℝ) + 1) / 166 * p) (v0 % 9 + 1) (v0 / 9 + 1)
        = .ok colours
      ∧ blurhash_fake_decode s w h p =
          .ok ((List.range ((v0 % 9 + 1) * (v0 / 9 + 1))).map fun idx =>
            swatch_tile_spec colours (v0 % 9 + 1) (v0 / 9 + 1) w h (idx + 1))
      ∧ ((List.range ((v0 % 9 + 1) * (v0 / 9 + 1))).map fun idx =>
          swatch_tile_spec colours (v0 % 9 + 1) (v0 / 9 + 1) w h (idx + 1)).length
        = (v0 % 9 + 1) * (v0 / 9 + 1) := by
  obtain ⟨colours, hcol⟩ := decode_colours_ok s ((((q : ℕ) : ℝ) + 1) / 166 * p)
    (v0 % 9 + 1) (v0 / 9 + 1) hall
  refine ⟨colours, hcol, ?_, by rw [List.length_map, List.length_range]⟩
  have hcomp : blurhash_components s = .ok (v0 % 9 + 1, v0 / 9 + 1) := by
    simp only [blurhash_components, charAt_zero s c0 (c1 :: rest) hdata,
      base83_decode_one c0 v0 h0, except_bind_ok, except_pure_eq]
  have hmis : ¬(s.length ≠ 4 + 2 * (v0 % 9 + 1) * (v0 / 9 + 1)) := not_ne_iff.mpr hlen
  simp only [blurhash_fake_decode, hcomp, charAt_one s c0 c1 rest hdata,
    base83_decode_one c1 q h1, except_bind_ok, if_neg hmis, hcol, except_pure_eq]
  refine congrArg Except.ok (List.map_congr_left ?_)
  intro idx hidx
  have hrow := int_ceil_nat_div (idx + 1) (v0 % 9 + 1) (by omega) (by omega)
  simp only [swatch_tile_spec, hrow, Int.cast_natCast]
  by_cases hm : (idx + 1) % (v0 % 9 + 1) = 0
  · simp [hm]
  · simp [hm]

theorem C9_fake_decode_tiles_witness :
    ∃ colours,
      decode_colours "10JJJJJJ" ((((0 : ℕ) : ℝ) + 1) / 166 * 1) (1 % 9 + 1) (1 / 9 + 1)
        = .ok colours
      ∧ blurhash_fake_decode "10JJJJJJ" 2 2 1 =
          .ok ((List.range ((1 % 9 + 1) * (1 / 9 + 1))).map fun idx =>
            swatch_tile_spec colours (1 % 9 + 1) (1 / 9 + 1) 2 2 (idx + 1))
      ∧ ((List.range ((1 % 9 + 1) * (1 / 9 + 1))).map fun idx =>
          swatch_tile_spec colours (1 % 9 + 1) (1 / 9 + 1) 2 2 (idx + 1)).length
        = (1 % 9 + 1) * (1 / 9 + 1) :=
  C9_fake_decode_tiles "10JJJJJJ" 2 2 1 '1' '0' ['J', 'J', 'J', 'J', 'J', 'J'] rfl 1 0
    (by decide) (by decide) (by decide) (by decide) (by norm_num) (by norm_num)

/-! ### Claim C1: decode-then-encode round trips -/

theorem quant_max_ac_zero : quant_max_ac 0 = 0 := by
  unfold quant_max_ac
  have hf : ⌊(0 : ℝ) * 166 - 0.5⌋ = -1 := by
    apply Int.floor_eq_iff.mpr
    constructor <;> norm_num
  rw [hf]
  rfl

theorem basis_sum_singleton (c : ℝ × ℝ × ℝ) (w h x y : ℝ) :
    basis_sum [c] 1 1 w h x y = c := by
  unfold basis_sum
  simp

theorem getD_map_range {α : Type} (f : ℕ → α) (n i : ℕ) (hi : i < n) (dflt : α) :
    ((List.range n).map f).getD i dflt = f i := by
  rw [List.getD_eq_getElem?_getD, List.getElem?_map, List.getElem?_range hi]
  rfl

theorem headD_map_range {α : Type} (f : ℕ → List α) (n : ℕ) (hn : 0 < n) :
    ((List.range n).map f).headD [] = f 0 := by
  obtain ⟨m, rfl⟩ : ∃ m, n = m + 1 := ⟨n - 1, by omega⟩
  rw [List.range_succ_eq_map]
  rfl

/-- Unpacking `(r << 16) + (g << 8) + b` the way the decoder does. -/
theorem dc_value_unpack (r g b : ℤ) (hr0 : 0 ≤ r) (hr1 : r ≤ 255)
    (hg0 : 0 ≤ g) (hg1 : g ≤ 255) (hb0 : 0 ≤ b) (hb1 : b ≤ 255) :
    (r * 2 ^ 16 + g * 2 ^ 8 + b).toNat / 2 ^ 16 = r.toNat
    ∧ (r * 2 ^ 16 + g * 2 ^ 8 + b).toNat / 2 ^ 8 % 256 = g.toNat
    ∧ (r * 2 ^ 16 + g * 2 ^ 8 + b).toNat % 256 = b.toNat
    ∧ (r * 2 ^ 16 + g * 2 ^ 8 + b).toNat < 83 ^ 4 := by
  have h1 : (2 : ℤ) ^ 16 = 65536 := by norm_num
  have h2 : (2 : ℤ) ^ 8 = 256 := by norm_num
  have h3 : (2 : ℕ) ^ 16 = 65536 := by norm_num
  have h4 : (2 : ℕ) ^ 8 = 256 := by norm_num
  have h5 : (83 : ℕ) ^ 4 = 47458321 := by norm_num
  rw [h1, h2, h3, h4, h5]
  omega

theorem encode_component_const (v : ℝ × ℝ × ℝ) (w h : ℕ) (hw : 0 < w) (hh : 0 < h) :
    encode_component ((List.range h).map fun _ => (List.range w).map fun _ => v) w h 0 0
      = v := by
  have hwR : (0 : ℝ) < (w : ℝ) := by exact_mod_cast hw
  have hhR : (0 : ℝ) < (h : ℝ) := by exact_mod_cast hh
  have hne : ((w : ℝ) * (h : ℝ)) ≠ 0 := by positivity
  have hgrid : ∀ y < h, ∀ x < w,
      ((((List.range h).map fun _ => (List.range w).map fun _ => v).getD y []).getD x
        ((0 : ℝ), (0 : ℝ), (0 : ℝ))) = v := by
    intro y hy x hx
    rw [getD_map_range _ h y hy, getD_map_range _ w x hx]
  obtain ⟨v1, v2, v3⟩ := v
  unfold encode_component
  simp only [Prod.mk.injEq]
  refine ⟨?_, ?_, ?_⟩
  · rw [div_eq_iff hne]
    trans (∑ y ∈ Finset.range h, ∑ x ∈ Finset.range w, v1)
    · exact Finset.sum_congr rfl fun y hy => Finset.sum_congr rfl fun x hx => by
        rw [hgrid y (Finset.mem_range.mp hy) x (Finset.mem_range.mp hx)]
        norm_num [Real.cos_zero]
    · simp only [Finset.sum_const, Finset.card_range, nsmul_eq_mul]
      ring
  · rw [div_eq_iff hne]
    trans (∑ y ∈ Finset.range h, ∑ x ∈ Finset.range w, v2)
    · exact Finset.sum_congr rfl fun y hy => Finset.sum_congr rfl fun x hx => by
        rw [hgrid y (Finset.mem_range.mp hy) x (Finset.mem_range.mp hx)]
        norm_num [Real.cos_zero]
    · simp only [Finset.sum_const, Finset.card_range, nsmul_eq_mul]
      ring
  · rw [div_eq_iff hne]
    trans (∑ y ∈ Finset.range h, ∑ x ∈ Finset.range w, v3)
    · exact Finset.sum_congr rfl fun y hy => Finset.sum_congr rfl fun x hx => by
        rw [hgrid y (Finset.mem_range.mp hy) x (Finset.mem_range.mp hx)]
        norm_num [Real.cos_zero]
    · simp only [Finset.sum_const, Finset.card_range, nsmul_eq_mul]
      ring

/-- Evaluation of the encoder at `components_x = components_y = 1`:
only the DC coefficient survives, the quantised max is 0, and the token
is the 6-character `"00" ++ dc`. -/
theorem blurhash_encode_1x1 (image : List (List (ℝ × ℝ × ℝ))) (lin : Bool) :
    blurhash_encode image 1 1 lin =
      .ok (base83_string 0 1 ++ base83_string 0 1
        ++ base83_string (encode_dc_value (encode_component (encode_image_linear image lin)
            (image.headD []).length image.length 0 0)).toNat 4) := by
  have hguard : ¬((1 : ℕ) < 1 ∨ (1 : ℕ) > 9 ∨ (1 : ℕ) < 1 ∨ (1 : ℕ) > 9) := by omega
  set img := encode_image_linear image lin with himg
  set wN := (image.headD []).length with hwN
  set hN := image.length with hhN
  set comp := encode_component img wN hN 0 0 with hcomp
  have hcomps : encode_components img wN hN 1 1 = [comp] := rfl
  have hmax : max_ac_component [comp] = 0 := rfl
  obtain ⟨hd0, hdlt⟩ := encode_dc_value_bounds comp
  have e1 : base83_encode 0 1 = .ok (base83_string 0 1) := base83_encode_ok 0 1 (by norm_num)
  have e3 : base83_encode (encode_dc_value comp).toNat 4
      = .ok (base83_string (encode_dc_value comp).toNat 4) := by
    apply base83_encode_ok
    have h5 : (83 : ℕ) ^ 4 = 47458321 := by norm_num
    omega
  simp only [blurhash_encode, if_neg hguard, ← hwN, ← hhN, ← himg, hcomps, hmax,
    quant_max_ac_zero, List.headD_cons, List.drop_succ_cons, List.drop_zero, List.drop_nil,
    List.map_nil, List.mapM_nil, Int.toNat_zero, e1, e3, except_bind_ok, except_pure_eq,
    List.foldl_nil, ← hcomp]

/-- Evaluation of the dense decoder on a `"00" ++ dc` token: a constant
grid carrying the byte round trip of the packed DC colour. -/
theorem blurhash_decode_header00 (d : ℕ) (hd : d < 83 ^ 4) (w h : ℕ) (p : ℝ) :
    blurhash_decode (base83_string 0 1 ++ base83_string 0 1 ++ base83_string d 4) w h p false
      = .ok ((List.range h).map fun y => (List.range w).map fun x =>
          (((linear_to_srgb (srgb_to_linear ((d / 2 ^ 16 : ℕ) : ℝ)) : ℤ) : ℝ),
           ((linear_to_srgb (srgb_to_linear ((d / 2 ^ 8 % 256 : ℕ) : ℝ)) : ℤ) : ℝ),
           ((linear_to_srgb (srgb_to_linear ((d % 256 : ℕ) : ℝ)) : ℤ) : ℝ))) := by
  set t := base83_string 0 1 ++ base83_string 0 1 ++ base83_string d 4 with ht
  have hb0 : base83_string 0 1 = "0" := rfl
  have hdata : t.data = '0' :: '0' :: (base83_string d 4).data := by
    rw [ht, String.data_append, String.data_append, hb0]
    rfl
  have hlen : t.length = 6 := by
    rw [ht, String.length_append, String.length_append, base83_string_length,
      base83_string_length]
  have hslice : strSlice t 2 6 = base83_string d 4 := by
    have h4 : (base83_string d 4).data.length = 4 := base83_string_length d 4
    have htake : ((base83_string d 4).data).take (6 - 2) = (base83_string d 4).data := by
      apply List.take_of_length_le
      omega
    unfold strSlice
    rw [string_toList_eq, hdata]
    show String.mk (((base83_string d 4).data).take (6 - 2)) = base83_string d 4
    rw [htake]
  have hdc : base83_decode (strSlice t 2 6) = .ok d := by
    rw [hslice]
    exact base83_decode_base83_string d 4 hd
  have hch0 : charAt t 0 = .ok '0' := charAt_zero t '0' _ hdata
  have hch1 : charAt t 1 = .ok '0' := charAt_one t '0' '0' _ hdata
  have hd0 : base83_decode (String.mk ['0']) = .ok 0 := base83_decode_one '0' 0 (by decide)
  have hc1 : ¬((6 : ℕ) < 6) := by norm_num
  have hc2 : ¬((6 : ℕ) ≠ 4 + 2 * (0 % 9 + 1) * (0 / 9 + 1)) := by norm_num
  have hfb : ¬(false = true) := by decide
  have hsz : (0 : ℕ) % 9 + 1 = 1 := rfl
  have hsz2 : (0 : ℕ) / 9 + 1 = 1 := rfl
  simp only [blurhash_decode, hlen, hch0, hch1, hd0, except_bind_ok, if_neg hc1, if_neg hc2,
    if_neg hfb, hsz, hsz2, decode_colours_dc_only t _ d hdc, except_pure_eq,
    basis_sum_singleton]

/-- Re-encoding a constant byte grid at `1 × 1` components packs the
same three bytes again. -/
theorem encode_1x1_of_const_grid (r g b : ℤ) (w h : ℕ) (hw : 0 < w) (hh : 0 < h)
    (hr0 : 0 ≤ r) (hr1 : r ≤ 255) (hg0 : 0 ≤ g) (hg1 : g ≤ 255)
    (hb0 : 0 ≤ b) (hb1 : b ≤ 255) :
    blurhash_encode ((List.range h).map fun _ => (List.range w).map fun _ =>
        (((r : ℤ) : ℝ), ((g : ℤ) : ℝ), ((b : ℤ) : ℝ))) 1 1 false
      = .ok (base83_string 0 1 ++ base83_string 0 1
          ++ base83_string (r * 2 ^ 16 + g * 2 ^ 8 + b).toNat 4) := by
  have h1 := blurhash_encode_1x1 ((List.range h).map fun _ => (List.range w).map fun _ =>
      (((r : ℤ) : ℝ), ((g : ℤ) : ℝ), ((b : ℤ) : ℝ))) false
  have hlenp : ((List.range h).map fun _ => (List.range w).map fun _ =>
      (((r : ℤ) : ℝ), ((g : ℤ) : ℝ), ((b : ℤ) : ℝ))).length = h := by
    rw [List.length_map, List.length_range]
  have hheadp : (((List.range h).map fun _ => (List.range w).map fun _ =>
      (((r : ℤ) : ℝ), ((g : ℤ) : ℝ), ((b : ℤ) : ℝ))).headD []).length = w := by
    rw [headD_map_range _ h hh, List.length_map, List.length_range]
  have hlin : encode_image_linear ((List.range h).map fun _ => (List.range w).map fun _ =>
        (((r : ℤ) : ℝ), ((g : ℤ) : ℝ), ((b : ℤ) : ℝ))) false
      = (List.range h).map fun _ => (List.range w).map fun _ =>
          (srgb_to_linear ((r : ℤ) : ℝ), srgb_to_linear ((g : ℤ) : ℝ),
            srgb_to_linear ((b : ℤ) : ℝ)) := by
    unfold encode_image_linear
    rw [if_neg (by decide : ¬(false = true))]
    rw [hlenp, hheadp]
    apply List.map_congr_left
    intro y hy
    apply List.map_congr_left
    intro x hx
    rw [getD_map_range _ h y (List.mem_range.mp hy), getD_map_range _ w x (List.mem_range.mp hx)]
  rw [hlenp, hheadp, hlin, encode_component_const _ w h hw hh] at h1
  have hv : encode_dc_value (srgb_to_linear ((r : ℤ) : ℝ), srgb_to_linear ((g : ℤ) : ℝ),
        srgb_to_linear ((b : ℤ) : ℝ)) = r * 2 ^ 16 + g * 2 ^ 8 + b := by
    show linear_to_srgb (srgb_to_linear ((r : ℤ) : ℝ)) * 2 ^ 16
        + linear_to_srgb (srgb_to_linear ((g : ℤ) : ℝ)) * 2 ^ 8
        + linear_to_srgb (srgb_to_linear ((b : ℤ) : ℝ)) = r * 2 ^ 16 + g * 2 ^ 8 + b
    rw [byte_roundtrip r hr0 hr1, byte_roundtrip g hg0 hg1, byte_roundtrip b hb0 hb1]
  rw [hv] at h1
  exact h1

/-- Decoding the `1 × 1` encoder output at any size gives the constant
grid of the DC bytes. -/
theorem decode_of_encode_1x1 (comp : ℝ × ℝ × ℝ) (w h : ℕ) :
    blurhash_decode (base83_string 0 1 ++ base83_string 0 1
        ++ base83_string (encode_dc_value comp).toNat 4) w h 1 false
      = .ok ((List.range h).map fun (_ : ℕ) => (List.range w).map fun (_ : ℕ) =>
          (((linear_to_srgb comp.1 : ℤ) : ℝ), ((linear_to_srgb comp.2.1 : ℤ) : ℝ),
           ((linear_to_srgb comp.2.2 : ℤ) : ℝ))) := by
  obtain ⟨hr0, hr1⟩ := linear_to_srgb_bounds comp.1
  obtain ⟨hg0, hg1⟩ := linear_to_srgb_bounds comp.2.1
  obtain ⟨hb0, hb1⟩ := linear_to_srgb_bounds comp.2.2
  obtain ⟨hu1, hu2, hu3, hu4⟩ := dc_value_unpack _ _ _ hr0 hr1 hg0 hg1 hb0 hb1
  have hdE : encode_dc_value comp = linear_to_srgb comp.1 * 2 ^ 16
      + linear_to_srgb comp.2.1 * 2 ^ 8 + linear_to_srgb comp.2.2 := rfl
  have hdec := blurhash_decode_header00 (encode_dc_value comp).toNat (by rw [hdE]; exact hu4)
    w h 1
  rw [hdE] at hdec
  rw [hu1, hu2, hu3] at hdec
  have hcr : (((linear_to_srgb comp.1).toNat : ℕ) : ℝ) = ((linear_to_srgb comp.1 : ℤ) : ℝ) := by
    exact_mod_cast Int.toNat_of_nonneg hr0
  have hcg : (((linear_to_srgb comp.2.1).toNat : ℕ) : ℝ)
      = ((linear_to_srgb comp.2.1 : ℤ) : ℝ) := by
    exact_mod_cast Int.toNat_of_nonneg hg0
  have hcb : (((linear_to_srgb comp.2.2).toNat : ℕ) : ℝ)
      = ((linear_to_srgb comp.2.2 : ℤ) : ℝ) := by
    exact_mod_cast Int.toNat_of_nonneg hb0
  rw [hcr, hcg, hcb, byte_roundtrip _ hr0 hr1, byte_roundtrip _ hg0 hg1,
    byte_roundtrip _ hb0 hb1] at hdec
  rw [← hdE] at hdec
  exact hdec

/-- C1 amended: with `components_x = components_y = 1` (DC-only
tokens), re-encoding the decoded image reproduces the identical hash
token, for any decode dimensions `w, h ≥ 1`. -/
theorem C1_amended_dc_only (image : List (List (ℝ × ℝ × ℝ))) (w h : ℕ)
    (himg : 0 < image.length) (hwid : 0 < (image.headD []).length)
    (hw : 0 < w) (hh : 0 < h) :
    ∃ t pix, blurhash_encode image 1 1 false = .ok t
      ∧ blurhash_decode t w h 1 false = .ok pix
      ∧ blurhash_encode pix 1 1 false = .ok t := by
  obtain ⟨hr0, hr1⟩ := linear_to_srgb_bounds (encode_component
    (encode_image_linear image false) (image.headD []).length image.length 0 0).1
  obtain ⟨hg0, hg1⟩ := linear_to_srgb_bounds (encode_component
    (encode_image_linear image false) (image.headD []).length image.length 0 0).2.1
  obtain ⟨hb0, hb1⟩ := linear_to_srgb_bounds (encode_component
    (encode_image_linear image false) (image.headD []).length image.length 0 0).2.2
  refine ⟨_, _, blurhash_encode_1x1 image false, decode_of_encode_1x1 _ w h, ?_⟩
  have h2 := encode_1x1_of_const_grid
    (linear_to_srgb (encode_component (encode_image_linear image false)
      (image.headD []).length image.length 0 0).1)
    (linear_to_srgb (encode_component (encode_image_linear image false)
      (image.headD []).length image.length 0 0).2.1)
    (linear_to_srgb (encode_component (encode_image_linear image false)
      (image.headD []).length image.length 0 0).2.2)
    w h hw hh hr0 hr1 hg0 hg1 hb0 hb1
  exact h2

theorem C1_amended_dc_only_witness :
    ∃ t pix, blurhash_encode [[(255, 0, 0), (0, 0, 255)]] 1 1 false = .ok t
      ∧ blurhash_decode t 3 2 1 false = .ok pix
      ∧ blurhash_encode pix 1 1 false = .ok t :=
  C1_amended_dc_only [[(255, 0, 0), (0, 0, 255)]] 3 2 (by norm_num) (by norm_num)
    (by norm_num) (by norm_num)

/-! ### C1 counterexample machinery: evaluating the codec on a 1×2 image -/

theorem sign_pow_of_nonneg (z e : ℝ) (hz : 0 ≤ z) : sign_pow z e = z ^ e := by
  unfold sign_pow
  rw [if_neg (not_lt.mpr hz), abs_of_nonneg hz]

theorem rpow_two_of_nonneg (x : ℝ) (h : 0 ≤ x) : x ^ (2 : ℝ) = x ^ (2 : ℕ) := by
  rw [show (2 : ℝ) = ((2 : ℕ) : ℝ) by norm_num, Real.rpow_natCast]

/-- Evaluating `linear_to_srgb` on the linear branch. -/
theorem l2s_linear_eval (v : ℝ) (n : ℤ) (h0 : 0 ≤ v) (h1 : v ≤ 0.0031308)
    (hlo : (n : ℝ) ≤ v * 12.92 * 255 + 0.5) (hhi : v * 12.92 * 255 + 0.5 < (n : ℝ) + 1) :
    linear_to_srgb v = n := by
  unfold linear_to_srgb
  have hv1 : v ≤ 1 := by linarith
  rw [min_eq_right hv1, max_eq_right h0, if_pos h1]
  exact Int.floor_eq_iff.mpr ⟨hlo, hhi⟩

/-- Evaluating `linear_to_srgb` on the gamma branch, via rational
bounds on the power `v ^ (1/2.4)`. -/
theorem l2s_gamma_eval (v : ℝ) (n : ℤ) (A B : ℝ) (h0 : 0 ≤ v) (h1 : v ≤ 1)
    (hgt : 0.0031308 < v) (hA : A ≤ v ^ ((1 : ℝ) / 2.4)) (hB : v ^ ((1 : ℝ) / 2.4) < B)
    (hlo : (n : ℝ) ≤ (1.055 * A - 0.055) * 255 + 0.5)
    (hhi : (1.055 * B - 0.055) * 255 + 0.5 ≤ (n : ℝ) + 1) :
    linear_to_srgb v = n := by
  unfold linear_to_srgb
  rw [min_eq_right h1, max_eq_right h0, if_neg (by push_neg; exact hgt)]
  exact Int.floor_eq_iff.mpr ⟨by nlinarith, by nlinarith⟩

/-- Evaluating `quant_max_ac` when `m * 166 - 0.5` lies in `[0, 1)`. -/
theorem quant_max_ac_eval_zero (m : ℝ) (hlo : 0 ≤ m * 166 - 0.5) (hhi : m * 166 - 0.5 < 1) :
    quant_max_ac m = 0 := by
  unfold quant_max_ac
  have hf : ⌊m * 166 - 0.5⌋ = 0 := Int.floor_eq_iff.mpr ⟨by exact_mod_cast hlo, by push_cast; linarith⟩
  rw [hf]
  rfl

/-- Evaluating one AC digit via rational bounds on the square root. -/
theorem encode_ac_digit_eval (f v : ℝ) (n : ℤ) (A B : ℝ) (h0n : 0 ≤ n) (h18 : n ≤ 18)
    (hvf : 0 ≤ v / f) (hA : A ≤ (v / f) ^ ((0.5 : ℝ))) (hB : (v / f) ^ ((0.5 : ℝ)) < B)
    (hlo : (n : ℝ) ≤ A * 9 + 9.5) (hhi : B * 9 + 9.5 ≤ (n : ℝ) + 1) :
    encode_ac_digit f v = n := by
  unfold encode_ac_digit
  rw [sign_pow_of_nonneg _ _ hvf]
  have hf : ⌊(v / f) ^ ((0.5 : ℝ)) * 9 + 9.5⌋ = n :=
    Int.floor_eq_iff.mpr ⟨by nlinarith, by push_cast; nlinarith⟩
  rw [hf]
  have h2 : min 18 n = n := min_eq_right h18
  have h3 : max 0 n = n := max_eq_right h0n
  rw [h2, h3]

/-- The DC projection of a linear 1×2 image. -/
theorem encode_component_1x2_dc (P Q : ℝ × ℝ × ℝ) :
    encode_component [[P, Q]] 2 1 0 0
      = ((P.1 + Q.1) / 2, (P.2.1 + Q.2.1) / 2, (P.2.2 + Q.2.2) / 2) := by
  unfold encode_component
  norm_num [Finset.sum_range_succ, Finset.sum_range_one, Real.cos_zero]

/-- The single AC projection of a linear 1×2 image: the `x = 1` basis
value is `cos(π/2) = 0`, so only the first pixel contributes. -/
theorem encode_component_1x2_ac (P Q : ℝ × ℝ × ℝ) :
    encode_component [[P, Q]] 2 1 1 0 = (P.1, P.2.1, P.2.2) := by
  unfold encode_component
  have harg : Real.pi * ((1 : ℕ) : ℝ) * ((1 : ℕ) : ℝ) / ((2 : ℕ) : ℝ) = Real.pi / 2 := by
    push_cast
    ring
  norm_num [Finset.sum_range_succ, Finset.sum_range_one, Real.cos_zero, harg,
    Real.cos_pi_div_two]

/-- The `max_ac_component` of a two-entry table whose AC entry is a
non-negative gray triple. -/
theorem max_ac_component_pair_gray (P : ℝ × ℝ × ℝ) (v : ℝ) (hv : 0 ≤ v) :
    max_ac_component [P, (v, v, v)] = v := by
  unfold max_ac_component
  show max (max (max 0 |v|) |v|) |v| = v
  rw [abs_of_nonneg hv]
  simp [max_eq_right hv, max_self]

/-- The synthesis sum of a two-colour table at pixel `(0, 0)` of a 2×1
decode: both basis values are 1. -/
theorem basis_sum_pair_x0 (A B : ℝ × ℝ × ℝ) :
    basis_sum [A, B] 2 1 2 1 0 0 = A + B := by
  unfold basis_sum
  norm_num [Finset.sum_range_succ, Finset.sum_range_one, Real.cos_zero]

/-- The synthesis sum of a two-colour table at pixel `(1, 0)` of a 2×1
decode: the AC basis value is `cos(π/2) = 0`. -/
theorem basis_sum_pair_x1 (A B : ℝ × ℝ × ℝ) :
    basis_sum [A, B] 2 1 2 1 1 0 = A := by
  unfold basis_sum
  have harg : Real.pi * (1 : ℝ) * ((1 : ℕ) : ℝ) / 2 = Real.pi / 2 := by
    push_cast
    ring
  norm_num [Finset.sum_range_succ, Finset.sum_range_one, Real.cos_zero, harg,
    Real.cos_pi_div_two]

theorem exp05_eq : (0.5 : ℝ) = ((1 : ℕ) : ℝ) / ((2 : ℕ) : ℝ) := by norm_num

theorem s2l_ten : srgb_to_linear (10 : ℝ) = 50 / 16473 := by
  unfold srgb_to_linear
  rw [if_pos (by norm_num)]
  norm_num

theorem s2l_zero : srgb_to_linear (0 : ℝ) = 0 := by
  unfold srgb_to_linear
  rw [if_pos (by norm_num)]
  norm_num

theorem s2l_five : srgb_to_linear (5 : ℝ) = 25 / 16473 := by
  unfold srgb_to_linear
  rw [if_pos (by norm_num)]
  norm_num

theorem s2l_thirteen : srgb_to_linear (13 : ℝ) = ((1081 / 10761 : ℝ)) ^ (2.4 : ℝ) := by
  unfold srgb_to_linear
  rw [if_neg (by norm_num), show ((13 : ℝ) / 255 + 0.055) / 1.055 = 1081 / 10761 by norm_num]

theorem L13_nonneg : 0 ≤ ((1081 / 10761 : ℝ)) ^ (2.4 : ℝ) :=
  Real.rpow_nonneg (by norm_num) _

theorem L13_lo : (20 / 5491 : ℝ) ≤ ((1081 / 10761 : ℝ)) ^ (2.4 : ℝ) := by
  rw [exp24_eq, le_rpow_nat_div_iff (by norm_num) (by norm_num) 12 5 (by norm_num)]
  norm_num

theorem L13_hi : ((1081 / 10761 : ℝ)) ^ (2.4 : ℝ) < 103 / 25000 := by
  rw [exp24_eq, rpow_nat_div_lt_iff (by norm_num) (by norm_num) 12 5 (by norm_num)]
  norm_num

theorem z1_pow_lo : (1061 / 10761 : ℝ) ≤ ((17207 / 4101777 : ℝ)) ^ ((1 : ℝ) / 2.4) := by
  rw [expInv24_eq, le_rpow_nat_div_iff (by norm_num) (by norm_num) 5 12 (by norm_num)]
  norm_num

theorem z1_pow_hi : ((17207 / 4101777 : ℝ)) ^ ((1 : ℝ) / 2.4) < 367 / 3587 := by
  rw [expInv24_eq, rpow_nat_div_lt_iff (by norm_num) (by norm_num) 5 12 (by norm_num)]
  norm_num

theorem l2s_dc1 : linear_to_srgb ((50 / 16473 + 0) / 2 : ℝ) = 5 := by
  apply l2s_linear_eval <;> norm_num

theorem l2s_z1 : linear_to_srgb (17207 / 4101777 : ℝ) = 13 := by
  apply l2s_gamma_eval (17207 / 4101777 : ℝ) 13 (1061 / 10761) (367 / 3587)
  · norm_num
  · norm_num
  · norm_num
  · exact z1_pow_lo
  · exact z1_pow_hi
  · norm_num
  · norm_num

theorem l2s_dc2 : linear_to_srgb ((((1081 / 10761 : ℝ)) ^ (2.4 : ℝ) + 25 / 16473) / 2) = 9 := by
  have hlo := L13_lo
  have hhi := L13_hi
  apply l2s_linear_eval
  · nlinarith [L13_nonneg]
  · nlinarith
  · nlinarith
  · nlinarith

theorem quant1_eval : quant_max_ac (50 / 16473 : ℝ) = 0 := by
  apply quant_max_ac_eval_zero <;> norm_num

theorem quant2_eval : quant_max_ac (((1081 / 10761 : ℝ)) ^ (2.4 : ℝ)) = 0 := by
  have hlo := L13_lo
  have hhi := L13_hi
  apply quant_max_ac_eval_zero <;> nlinarith

theorem dig1_eval :
    encode_ac_digit ((((0 : ℤ) : ℝ) + 1) / 166) (50 / 16473 : ℝ) = 15 := by
  have hx : (50 / 16473 : ℝ) / ((((0 : ℤ) : ℝ) + 1) / 166) = 8300 / 16473 := by
    norm_num
  apply encode_ac_digit_eval _ _ 15 (11 / 18) (13 / 18)
  · norm_num
  · norm_num
  · rw [hx]
    norm_num
  · rw [hx, exp05_eq, le_rpow_nat_div_iff (by norm_num) (by norm_num) 1 2 (by norm_num)]
    norm_num
  · rw [hx, exp05_eq, rpow_nat_div_lt_iff (by norm_num) (by norm_num) 1 2 (by norm_num)]
    norm_num
  · norm_num
  · norm_num

theorem dig2_eval :
    encode_ac_digit ((((0 : ℤ) : ℝ) + 1) / 166)
      (((1081 / 10761 : ℝ)) ^ (2.4 : ℝ)) = 16 := by
  have hlo := L13_lo
  have hhi := L13_hi
  have hx : (((1081 / 10761 : ℝ)) ^ (2.4 : ℝ)) / ((((0 : ℤ) : ℝ) + 1) / 166)
      = (((1081 / 10761 : ℝ)) ^ (2.4 : ℝ)) * 166 := by
    rw [show ((((0 : ℤ) : ℝ) + 1) / 166) = 1 / 166 by norm_num]
    rw [div_div_eq_mul_div, div_one]
  apply encode_ac_digit_eval _ _ 16 (13 / 18) (15 / 18)
  · norm_num
  · norm_num
  · rw [hx]
    nlinarith [L13_nonneg]
  · rw [hx, exp05_eq, le_rpow_nat_div_iff (by norm_num) (by nlinarith [L13_nonneg]) 1 2
      (by norm_num)]
    nlinarith
  · rw [hx, exp05_eq, rpow_nat_div_lt_iff (by norm_num) (by nlinarith [L13_nonneg]) 1 2
      (by norm_num)]
    nlinarith
  · norm_num
  · norm_num

/-- Full evaluation of the encoder on a gray 1-row, 2-pixel image with
`components_x = 2`, `components_y = 1`, in terms of the quantised
values. -/
theorem blurhash_encode_1x2_gray (a b la lb : ℝ)
    (hla : srgb_to_linear a = la) (hlb : srgb_to_linear b = lb) (hla0 : 0 ≤ la)
    (q : ℤ) (hq : quant_max_ac la = q) (hq0 : 0 ≤ q) (hq82 : q ≤ 82)
    (dcb : ℤ) (hdcb : linear_to_srgb ((la + lb) / 2) = dcb)
    (dig : ℤ) (hdig : encode_ac_digit ((((q : ℤ) : ℝ) + 1) / 166) la = dig)
    (hdig0 : 0 ≤ dig) (hdig18 : dig ≤ 18) :
    blurhash_encode [[(a, a, a), (b, b, b)]] 2 1 false
      = .ok (base83_string 1 1 ++ base83_string q.toNat 1
          ++ base83_string (dcb * 2 ^ 16 + dcb * 2 ^ 8 + dcb).toNat 4
          ++ base83_string (dig * 19 * 19 + dig * 19 + dig).toNat 2) := by
  have hguard : ¬((2 : ℕ) < 1 ∨ (2 : ℕ) > 9 ∨ (1 : ℕ) < 1 ∨ (1 : ℕ) > 9) := by omega
  have hlin : encode_image_linear [[(a, a, a), (b, b, b)]] false
      = [[(srgb_to_linear a, srgb_to_linear a, srgb_to_linear a),
          (srgb_to_linear b, srgb_to_linear b, srgb_to_linear b)]] := rfl
  rw [hla, hlb] at hlin
  have hcomps : encode_components [[(la, la, la), (lb, lb, lb)]] 2 1 2 1
      = [encode_component [[(la, la, la), (lb, lb, lb)]] 2 1 0 0,
         encode_component [[(la, la, la), (lb, lb, lb)]] 2 1 1 0] := rfl
  have hdc := encode_component_1x2_dc (la, la, la) (lb, lb, lb)
  have hac := encode_component_1x2_ac (la, la, la) (lb, lb, lb)
  have hmax : max_ac_component
      [((la + lb) / 2, (la + lb) / 2, (la + lb) / 2), (la, la, la)] = la :=
    max_ac_component_pair_gray _ la hla0
  have hdcv : encode_dc_value ((la + lb) / 2, (la + lb) / 2, (la + lb) / 2)
      = dcb * 2 ^ 16 + dcb * 2 ^ 8 + dcb := by
    show linear_to_srgb ((la + lb) / 2) * 2 ^ 16 + linear_to_srgb ((la + lb) / 2) * 2 ^ 8
        + linear_to_srgb ((la + lb) / 2) = dcb * 2 ^ 16 + dcb * 2 ^ 8 + dcb
    rw [hdcb]
  have hacv : encode_ac_value ((((q : ℤ) : ℝ) + 1) / 166) (la, la, la)
      = dig * 19 * 19 + dig * 19 + dig := by
    show encode_ac_digit ((((q : ℤ) : ℝ) + 1) / 166) la * 19 * 19
        + encode_ac_digit ((((q : ℤ) : ℝ) + 1) / 166) la * 19
        + encode_ac_digit ((((q : ℤ) : ℝ) + 1) / 166) la
        = dig * 19 * 19 + dig * 19 + dig
    rw [hdig]
  obtain ⟨hdcb0, hdcb255⟩ : 0 ≤ dcb ∧ dcb ≤ 255 := by
    have hb := linear_to_srgb_bounds ((la + lb) / 2)
    rw [hdcb] at hb
    exact hb
  have e1 : base83_encode 1 1 = .ok (base83_string 1 1) :=
    base83_encode_ok 1 1 (by norm_num)
  have e2 : base83_encode q.toNat 1 = .ok (base83_string q.toNat 1) := by
    apply base83_encode_ok
    norm_num
    omega
  have e3 : base83_encode (dcb * 2 ^ 16 + dcb * 2 ^ 8 + dcb).toNat 4
      = .ok (base83_string (dcb * 2 ^ 16 + dcb * 2 ^ 8 + dcb).toNat 4) := by
    apply base83_encode_ok
    have h5 : (83 : ℕ) ^ 4 = 47458321 := by norm_num
    have h16 : (2 : ℤ) ^ 16 = 65536 := by norm_num
    have h8 : (2 : ℤ) ^ 8 = 256 := by norm_num
    omega
  have e4 : [(dig * 19 * 19 + dig * 19 + dig).toNat].mapM (fun v => base83_encode v 2)
      = .ok [base83_string (dig * 19 * 19 + dig * 19 + dig).toNat 2] := by
    have := mapM_ok (fun v => base83_encode v 2) (fun v => base83_string v 2)
      [(dig * 19 * 19 + dig * 19 + dig).toNat] (by
        intro v hv
        rw [List.mem_singleton] at hv
        subst hv
        apply base83_encode_ok
        have h5 : (83 : ℕ) ^ 2 = 6889 := by norm_num
        omega)
    simpa using this
  simp only [blurhash_encode, if_neg hguard, hlin, List.length_cons, List.length_nil,
    hcomps, hdc, hac, hmax, hq, List.headD_cons, List.drop_succ_cons, List.drop_zero,
    List.map_cons, List.map_nil, hdcv, hacv, e1, e2, e3, e4, except_bind_ok,
    except_pure_eq, List.foldl_cons, List.foldl_nil]

theorem l2s_25 : linear_to_srgb (25 / 16473 : ℝ) = 5 := by
  apply l2s_linear_eval <;> norm_num

/-- Full evaluation of the dense decoder on the token produced by
encoding `[[(10,10,10),(0,0,0)]]` with 2×1 components. -/
theorem decode_token1 :
    blurhash_decode "100l#a-;" 2 1 1 false
      = .ok [[(((13 : ℤ) : ℝ), ((13 : ℤ) : ℝ), ((13 : ℤ) : ℝ)),
              (((5 : ℤ) : ℝ), ((5 : ℤ) : ℝ), ((5 : ℤ) : ℝ))]] := by
  have hch0 : charAt "100l#a-;" 0 = .ok '1' := rfl
  have hch1 : charAt "100l#a-;" 1 = .ok '0' := rfl
  have hd0 : base83_decode (String.mk ['1']) = .ok 1 := rfl
  have hd1 : base83_decode (String.mk ['0']) = .ok 0 := rfl
  have hc1 : ¬(("100l#a-;" : String).length < 6) := by decide
  have hc2 : ¬(("100l#a-;" : String).length ≠ 4 + 2 * (1 % 9 + 1) * (1 / 9 + 1)) := by decide
  have hcol : decode_colours "100l#a-;" ((((0 : ℕ) : ℝ) + 1) / 166 * 1) 2 1
      = .ok [(srgb_to_linear ((5 : ℕ) : ℝ), srgb_to_linear ((5 : ℕ) : ℝ),
              srgb_to_linear ((5 : ℕ) : ℝ)),
             (sign_pow ((((15 : ℕ) : ℝ) - 9) / 9) 2 * ((((0 : ℕ) : ℝ) + 1) / 166 * 1),
              sign_pow ((((15 : ℕ) : ℝ) - 9) / 9) 2 * ((((0 : ℕ) : ℝ) + 1) / 166 * 1),
              sign_pow ((((15 : ℕ) : ℝ) - 9) / 9) 2 * ((((0 : ℕ) : ℝ) + 1) / 166 * 1))] := rfl
  have hcast5 : ((5 : ℕ) : ℝ) = (5 : ℝ) := by norm_num
  have hsp : sign_pow ((((15 : ℕ) : ℝ) - 9) / 9) 2 * ((((0 : ℕ) : ℝ) + 1) / 166 * 1)
      = 2 / 747 := by
    rw [sign_pow_of_nonneg _ _ (by norm_num), rpow_two_of_nonneg _ (by norm_num)]
    norm_num
  rw [hcast5, s2l_five, hsp, Nat.cast_zero] at hcol
  have hz1 : (25 / 16473 + 2 / 747 : ℝ) = 17207 / 4101777 := by norm_num
  have hr1 : List.range 1 = [0] := rfl
  have hr2 : List.range 2 = [0, 1] := rfl
  have hmod : (1 : ℕ) % 9 + 1 = 2 := rfl
  have hdiv : (1 : ℕ) / 9 + 1 = 1 := rfl
  simp only [blurhash_decode, hch0, hch1, hd0, hd1, except_bind_ok, if_neg hc1, if_neg hc2,
    hmod, hdiv, Nat.cast_ofNat, Nat.cast_zero, Nat.cast_one, hcol, except_pure_eq, hr1,
    hr2, List.map_cons, List.map_nil, basis_sum_pair_x0, basis_sum_pair_x1, Prod.fst_add,
    Prod.snd_add, hz1, l2s_z1, l2s_25, if_neg (by decide : ¬(false = true))]

/-- C1 counterexample: for the 1×2 image `[[(10,10,10),(0,0,0)]]` with
`cx = 2, cy = 1`, decoding to 2×1 and re-encoding yields the token
`"1012\x7bF?b"`, not the original `"100l#a-;"`: the decode-then-encode
round trip is not a fixed point of the quantisation. -/
theorem C1_counterexample :
    blurhash_encode [[((10 : ℝ), 10, 10), ((0 : ℝ), 0, 0)]] 2 1 false = .ok "100l#a-;"
    ∧ blurhash_decode "100l#a-;" 2 1 1 false
        = .ok [[(((13 : ℤ) : ℝ), ((13 : ℤ) : ℝ), ((13 : ℤ) : ℝ)),
                (((5 : ℤ) : ℝ), ((5 : ℤ) : ℝ), ((5 : ℤ) : ℝ))]]
    ∧ blurhash_encode [[(((13 : ℤ) : ℝ), ((13 : ℤ) : ℝ), ((13 : ℤ) : ℝ)),
                        (((5 : ℤ) : ℝ), ((5 : ℤ) : ℝ), ((5 : ℤ) : ℝ))]] 2 1 false
        = .ok "1012\x7bF?b"
    ∧ ("1012\x7bF?b" : String) ≠ "100l#a-;" := by
  refine ⟨?_, decode_token1, ?_, by decide⟩
  · have h := blurhash_encode_1x2_gray 10 0 (50 / 16473) 0 s2l_ten s2l_zero (by norm_num)
      0 quant1_eval (by norm_num) (by norm_num) 5 l2s_dc1 15 dig1_eval
      (by norm_num) (by norm_num)
    rw [h]
    rfl
  · have hs13c : srgb_to_linear (((13 : ℤ) : ℝ)) = ((1081 / 10761 : ℝ)) ^ (2.4 : ℝ) := by
      rw [show (((13 : ℤ) : ℝ)) = (13 : ℝ) by norm_num]
      exact s2l_thirteen
    have hs5c : srgb_to_linear (((5 : ℤ) : ℝ)) = 25 / 16473 := by
      rw [show (((5 : ℤ) : ℝ)) = (5 : ℝ) by norm_num]
      exact s2l_five
    have h := blurhash_encode_1x2_gray ((13 : ℤ) : ℝ) ((5 : ℤ) : ℝ)
      (((1081 / 10761 : ℝ)) ^ (2.4 : ℝ)) (25 / 16473) hs13c hs5c L13_nonneg
      0 quant2_eval (by norm_num) (by norm_num) 9 l2s_dc2 16 dig2_eval
      (by norm_num) (by norm_num)
    rw [h]
    rfl

end Blurhash
